import Mathlib

/-!
# Tile-scrolling game loop (`main.go`): shallow embedding and verified properties

Go slices of `int` are modelled as `List Int`, grids (`[][]int`) as
`List (List Int)` and layer stacks (`[][][]int`) as `List (List (List Int))`.
A Go run-time panic (index or slice bound out of range, `make` with a negative
length) is modelled by `none`; a normal return by `some`.
A `nil` slice and an empty slice are both the empty list.
-/

namespace TestApp

/-! ## Go slice primitives -/

/-- Go `make([]int, n)`: a zero-filled slice of length `n`; panics when `n` is negative. -/
def makeInts (n : Int) : Option (List Int) :=
  if n < 0 then none else some (List.replicate n.toNat 0)

/-- Go `a[lo:]`: panics unless `0 ≤ lo ≤ len(a)`. -/
def sliceFrom {α : Type} (a : List α) (lo : Int) : Option (List α) :=
  if lo < 0 ∨ (a.length : Int) < lo then none else some (a.drop lo.toNat)

/-- Go `a[:hi]`: panics unless `0 ≤ hi ≤ len(a)` (the capacity is taken to be the length). -/
def sliceTo {α : Type} (a : List α) (hi : Int) : Option (List α) :=
  if hi < 0 ∨ (a.length : Int) < hi then none else some (a.take hi.toNat)

/-- Go `a[i]` read: panics when `i` is out of range. -/
def indexAt {α : Type} (a : List α) (i : Nat) : Option α := a[i]?

/-- Go `a[i] = v` write: panics when `i` is out of range. -/
def storeAt {α : Type} (a : List α) (i : Nat) (v : α) : Option (List α) :=
  if i < a.length then some (a.set i v) else none

/-- Go `copy(dst, src)`: overwrites the first `min(len(dst), len(src))` cells of `dst`. -/
def goCopy {α : Type} (dst src : List α) : List α :=
  src.take dst.length ++ dst.drop src.length

/-! ## GridShifter -/

/-- Function `ShiftIntArrRight` of `main.go`. -/
def ShiftIntArrRight (arrToShift : List Int) (spaceToShift : Int) : Option (List Int) :=
  let newArr : List Int := []
  if (arrToShift.length : Int) < spaceToShift then
    makeInts arrToShift.length
  else do
    let suppArr ← makeInts spaceToShift
    let rest ← sliceFrom arrToShift spaceToShift
    let newArr := newArr ++ rest
    let newArr := newArr ++ suppArr
    pure newArr

/-- Function `ShiftIntArrLeft` of `main.go`. -/
def ShiftIntArrLeft (arrToShift : List Int) (spaceToShift : Int) : Option (List Int) :=
  let newArr : List Int := []
  if (arrToShift.length : Int) < spaceToShift then
    makeInts arrToShift.length
  else do
    let suppArr ← makeInts spaceToShift
    let newArr := newArr ++ suppArr
    let front ← sliceTo arrToShift ((arrToShift.length : Int) - spaceToShift)
    let newArr := newArr ++ front
    pure newArr

/-- The loop `for i := 0; i < spaceToShift; i++ { newRow := make([]int, len(row0)); newArr = append(newArr, newRow) }`
shared by `ShiftLayerUp` and `ShiftLayerDown`. -/
def appendZeroRows (newArr : List (List Int)) (rowLen : Nat) (spaceToShift : Int) :
    Option (List (List Int)) :=
  (List.range spaceToShift.toNat).foldlM
    (fun acc _ => do
      let newRow ← makeInts rowLen
      pure (acc ++ [newRow]))
    newArr

/-- The overflow branch shared by `ShiftLayerUp` and `ShiftLayerDown`:
one `newRow` appended once per row of the layer. -/
def overflowLayer (layerToShift : List (List Int)) : Option (List (List Int)) := do
  let row0 ← indexAt layerToShift 0
  let newRow ← makeInts row0.length
  pure (layerToShift.foldl (fun newLayer _ => newLayer ++ [newRow]) [])

/-- Function `ShiftLayerUp` of `main.go`. -/
def ShiftLayerUp (layerToShift : List (List Int)) (spaceToShift : Int) :
    Option (List (List Int)) :=
  if layerToShift.length = 0 then some []
  else if spaceToShift ≥ (layerToShift.length : Int) then overflowLayer layerToShift
  else do
    let newArr ← sliceFrom layerToShift spaceToShift
    let row0 ← indexAt layerToShift 0
    appendZeroRows newArr row0.length spaceToShift

/-- Function `ShiftLayerDown` of `main.go`. -/
def ShiftLayerDown (layerToShift : List (List Int)) (spaceToShift : Int) :
    Option (List (List Int)) :=
  if layerToShift.length = 0 then some []
  else if spaceToShift ≥ (layerToShift.length : Int) then overflowLayer layerToShift
  else do
    let row0 ← indexAt layerToShift 0
    let newArr ← appendZeroRows [] row0.length spaceToShift
    let front ← sliceTo layerToShift ((layerToShift.length : Int) - spaceToShift)
    pure (newArr ++ front)

/-! ## LayerStore -/

/-- The loop `for index, val := range a { if val != b[index] { return false } }` of
`AreIntArrSame`, started at position `index`. -/
def areIntArrSameFrom (b : List Int) : Nat → List Int → Option Bool
  | _, [] => some true
  | index, val :: rest => do
      let other ← indexAt b index
      if val ≠ other then pure false else areIntArrSameFrom b (index + 1) rest

/-- Function `AreIntArrSame` of `main.go`. -/
def AreIntArrSame (a b : List Int) : Option Bool :=
  if a.length ≠ b.length then some false else areIntArrSameFrom b 0 a

/-- The loop `for rowIndex, row := range a { if !AreIntArrSame(row, b[rowIndex]) { return false } }`
of `AreLayerSame`, started at position `rowIndex`. -/
def areLayerSameFrom (b : List (List Int)) : Nat → List (List Int) → Option Bool
  | _, [] => some true
  | rowIndex, row :: rest => do
      let other ← indexAt b rowIndex
      let same ← AreIntArrSame row other
      if !same then pure false else areLayerSameFrom b (rowIndex + 1) rest

/-- Function `AreLayerSame` of `main.go`. -/
def AreLayerSame (a b : List (List Int)) : Option Bool :=
  if a.length ≠ b.length then some false else areLayerSameFrom b 0 a

/-- The inner loop of `DuplicateLayers`:
`for rowIndex, row := range layer { newRow := make([]int, len(row)); copy(newRow, row); newLayer[rowIndex] = newRow }`,
started at position `rowIndex`. -/
def duplicateRowsFrom : Nat → List (List Int) → List (List Int) → Option (List (List Int))
  | _, [], newLayer => some newLayer
  | rowIndex, row :: rest, newLayer => do
      let newRow ← makeInts row.length
      let newRow := goCopy newRow row
      let newLayer ← storeAt newLayer rowIndex newRow
      duplicateRowsFrom (rowIndex + 1) rest newLayer

/-- The outer loop of `DuplicateLayers`, started at position `layerIndex`.
`make([][]int, k)` is `k` nil rows. -/
def duplicateLayersFrom : Nat → List (List (List Int)) → List (List (List Int)) →
    Option (List (List (List Int)))
  | _, [], newLayers => some newLayers
  | layerIndex, layer :: rest, newLayers => do
      let sizeRow ← indexAt layer layerIndex
      let newLayer : List (List Int) := List.replicate sizeRow.length []
      let newLayer ← duplicateRowsFrom 0 layer newLayer
      let newLayers ← storeAt newLayers layerIndex newLayer
      duplicateLayersFrom (layerIndex + 1) rest newLayers

/-- Function `DuplicateLayers` of `main.go`. -/
def DuplicateLayers (layers : List (List (List Int))) : Option (List (List (List Int))) :=
  duplicateLayersFrom 0 layers (List.replicate layers.length [])

/-! ## GameState -/

/-- The key type `ebiten.Key` of the host library: the four arrow keys the program
compares against, and every other key. -/
inductive Key where
  | KeyLeft
  | KeyRight
  | KeyUp
  | KeyDown
  | other (code : Nat)
  deriving DecidableEq, Repr

/-! ### Machine numbers

Go `int` is the 64-bit two's complement integer. A `float64` is an IEEE 754 binary64
value; every finite one is an integer multiple of `2^-1074`, so a finite value is kept as
that integer number of units. The two zeros are not told apart (no operation of the
program distinguishes them). -/

/-- Wrap-around of an `int` result to the 64-bit two's complement range. -/
def wrap64 (z : Int) : Int :=
  (z + 9223372036854775808) % 18446744073709551616 - 9223372036854775808

/-- The number of units in `1.0`: `2^1074`. -/
@[irreducible]
def f64Scale : Int := ((2 ^ 1074 : Nat) : Int)

/-- A `float64` value: `finite units` is the value `units * 2^-1074`. -/
inductive F64 where
  | finite (units : Int)
  | posInf
  | negInf
  | nan
  deriving DecidableEq

/-- The `float64` with the integer value `z` (exact; used for the constants of the program
and for integer-valued coordinates). -/
def f64OfInt (z : Int) : F64 := F64.finite (z * f64Scale)

/-- Rounding of a magnitude to 53 significant bits, to nearest, ties to even. -/
def roundNat53 (n : Nat) : Nat :=
  if n.size ≤ 53 then n
  else
    let ulp := 2 ^ (n.size - 53)
    let q := n / ulp
    let r := n % ulp
    if 2 * r > ulp ∨ (2 * r = ulp ∧ q % 2 = 1) then (q + 1) * ulp else q * ulp

/-- Rounding of an exact result, given in units, to `float64`; a rounded magnitude of
`2^1024` (that is `2^2098` units) or more overflows to an infinity. -/
def roundUnits (z : Int) : F64 :=
  if roundNat53 z.natAbs ≥ 2 ^ 2098 then (if z < 0 then F64.negInf else F64.posInf)
  else F64.finite (if z < 0 then -(roundNat53 z.natAbs : Int) else (roundNat53 z.natAbs : Int))

/-- Go conversion `float64(i)` of an `int`: rounds to the nearest `float64`. -/
def goFloat (i : Int) : F64 := roundUnits (i * f64Scale)

/-- The result of converting a `float64` that does not fit `int` (an out-of-range value,
an infinity or NaN). The Go specification leaves it to the implementation; this is the
value on amd64, the smallest `int`. -/
def intIndefinite : Int := -9223372036854775808

/-- Go conversion `int(f)` of a `float64`: truncation toward zero when the result fits. -/
def goInt : F64 → Int
  | F64.finite units =>
      if -9223372036854775808 ≤ Int.tdiv units f64Scale
          ∧ Int.tdiv units f64Scale < 9223372036854775808 then
        Int.tdiv units f64Scale
      else intIndefinite
  | _ => intIndefinite

/-- Go `a - b` on `float64`. -/
def f64Sub : F64 → F64 → F64
  | F64.finite a, F64.finite b => roundUnits (a - b)
  | F64.nan, _ => F64.nan
  | _, F64.nan => F64.nan
  | F64.posInf, F64.posInf => F64.nan
  | F64.negInf, F64.negInf => F64.nan
  | F64.posInf, _ => F64.posInf
  | F64.negInf, _ => F64.negInf
  | F64.finite _, F64.posInf => F64.negInf
  | F64.finite _, F64.negInf => F64.posInf

/-- Go `a != b` on `float64`: true when either side is NaN. -/
def f64Ne : F64 → F64 → Bool
  | F64.nan, _ => true
  | _, F64.nan => true
  | a, b => decide (a ≠ b)

/-- Go `a < b` on `float64`: false when either side is NaN. -/
def f64Lt : F64 → F64 → Bool
  | F64.nan, _ => false
  | _, F64.nan => false
  | F64.finite a, F64.finite b => decide (a < b)
  | F64.negInf, F64.negInf => false
  | F64.negInf, _ => true
  | _, F64.negInf => false
  | F64.posInf, _ => false
  | F64.finite _, F64.posInf => true

/-- Go `math.Abs`. -/
def f64Abs : F64 → F64
  | F64.finite a => F64.finite |a|
  | F64.posInf => F64.posInf
  | F64.negInf => F64.posInf
  | F64.nan => F64.nan

/-- Type `Position` of `main.go`. -/
structure Position where
  X : F64
  Y : F64
  deriving DecidableEq

/-- Type `Game` of `main.go`. -/
structure Game where
  count : Int
  moveCount : Int
  protaganistPosition : Position
  keys : List Key
  layers : List (List (List Int))
  showTextBox : Bool
  textBoxLayers : List (List (List Int))
  currText : String

def screenWidth : Int := 240
def screenHeight : Int := 240
def proX : Int := screenWidth / 2
def proY : Int := screenHeight / 2
def tileSize : Int := 16
def tileXNum : Int := 25

/-- Function `modifyProtaganistX` of `main.go`. -/
def modifyProtaganistX (g : Game) (_screenWidth step : Int) : Option Game := do
  let newStep ←
    if g.keys.length > 0 then do
      let last ← indexAt g.keys (g.keys.length - 1)
      if last = Key.KeyLeft then pure (wrap64 (-step))
      else if last = Key.KeyRight then pure step
      else pure 0
    else pure (0 : Int)
  pure { g with protaganistPosition :=
    { g.protaganistPosition with X := goFloat (wrap64 (goInt g.protaganistPosition.X + newStep)) } }

/-- Function `modifyProtagainstY` of `main.go`. -/
def modifyProtagainstY (g : Game) (_screenWidth step : Int) : Option Game := do
  let newStep ←
    if g.keys.length > 0 then do
      let last ← indexAt g.keys (g.keys.length - 1)
      if last = Key.KeyUp then pure (wrap64 (-step))
      else if last = Key.KeyDown then pure step
      else pure 0
    else pure (0 : Int)
  pure { g with protaganistPosition :=
    { g.protaganistPosition with Y := goFloat (wrap64 (goInt g.protaganistPosition.Y + newStep)) } }

/-- Function `applyBoundries` of `main.go`: an empty body. -/
def applyBoundries (g : Game) : Game := g

/-- Function `collectUserInput` of `main.go`. -/
def collectUserInput (g : Game) (width height : Int) : Option Game := do
  let g ← modifyProtaganistX g width 1
  let g ← modifyProtagainstY g height 1
  pure (applyBoundries g)

/-! ## RenderLoop: the horizontal step of `drawBackgroundLayers` -/

/-- Go `newLayers[layerNum][lineNum] = row`. -/
def storeRow (newLayers : List (List (List Int))) (layerNum lineNum : Nat) (row : List Int) :
    Option (List (List (List Int))) := do
  let layer ← indexAt newLayers layerNum
  let layer ← storeAt layer lineNum row
  storeAt newLayers layerNum layer

/-- Go `newLayers[layerNum][lineNum][pixelNum] = v`. -/
def storeCell (newLayers : List (List (List Int))) (layerNum lineNum pixelNum : Nat) (v : Int) :
    Option (List (List (List Int))) := do
  let layer ← indexAt newLayers layerNum
  let line ← indexAt layer lineNum
  let line ← storeAt line pixelNum v
  storeRow newLayers layerNum lineNum line

/-- The body of the innermost loop (`for pixelNum := range line`) of the horizontal
step; `line` is the row as read when the enclosing iteration began. -/
def shiftPixel (difference : F64) (layerNum lineNum : Nat) (line : List Int)
    (newLayers : List (List (List Int))) (pixelNum : Nat) : Option (List (List (List Int))) :=
  if f64Lt (f64OfInt 0) difference then do
    let shifted ← ShiftIntArrRight line (goInt difference)
    storeRow newLayers layerNum lineNum shifted
  else if f64Lt difference (f64OfInt 0) then do
    let shifted ← ShiftIntArrLeft line (goInt (f64Abs difference))
    storeRow newLayers layerNum lineNum shifted
  else storeCell newLayers layerNum lineNum pixelNum 0

/-- One iteration of `for lineNum, line := range layer`: the row is read from the
layer's storage (shared with `newLayers[layerNum]`) when the iteration begins. -/
def shiftLine (difference : F64) (layerNum : Nat) (newLayers : List (List (List Int)))
    (lineNum : Nat) : Option (List (List (List Int))) := do
  let layer ← indexAt newLayers layerNum
  let line ← indexAt layer lineNum
  (List.range line.length).foldlM (shiftPixel difference layerNum lineNum line) newLayers

/-- One iteration of `for layerNum, layer := range newLayers` in the horizontal step. -/
def shiftLayerLines (difference : F64) (newLayers : List (List (List Int))) (layerNum : Nat) :
    Option (List (List (List Int))) := do
  let layer ← indexAt newLayers layerNum
  (List.range layer.length).foldlM (shiftLine difference layerNum) newLayers

/-- The first block of `drawBackgroundLayers`, guarded by
`if g.protaganistPosition.X != proX`. Rows of `newLayers` are assumed not to share storage. -/
def horizontalStep (g : Game) (newLayers : List (List (List Int))) :
    Option (List (List (List Int))) :=
  if f64Ne g.protaganistPosition.X (f64OfInt proX) then
    let difference := f64Sub g.protaganistPosition.X (f64OfInt proX)
    (List.range newLayers.length).foldlM (shiftLayerLines difference) newLayers
  else some newLayers

/-- The world layers built by `loadGame`. -/
def loadGameLayers : List (List (List Int)) :=
  [ [ [243, 243, 243, 243, 243, 243, 243, 243, 243, 243, 243, 243, 243, 243, 243],
      [243, 243, 243, 243, 243, 243, 243, 243, 243, 243, 243, 243, 243, 243, 243],
      [243, 243, 243, 243, 243, 243, 243, 243, 243, 243, 243, 243, 243, 243, 243],
      [243, 218, 243, 243, 243, 243, 243, 243, 243, 243, 243, 218, 243, 244, 243],
      [243, 243, 243, 243, 243, 243, 243, 243, 243, 243, 243, 243, 243, 243, 243],
      [243, 243, 243, 243, 243, 243, 243, 243, 243, 243, 243, 243, 243, 243, 243],
      [243, 243, 243, 243, 243, 243, 243, 243, 243, 243, 243, 243, 243, 243, 243],
      [243, 243, 244, 243, 243, 243, 243, 243, 243, 243, 243, 243, 243, 243, 243],
      [243, 243, 243, 243, 243, 243, 243, 243, 243, 219, 243, 243, 243, 219, 243],
      [243, 243, 243, 243, 243, 243, 243, 243, 243, 243, 243, 243, 243, 243, 243],
      [243, 243, 243, 243, 243, 243, 243, 243, 243, 243, 243, 243, 243, 243, 243],
      [243, 243, 243, 243, 243, 243, 243, 243, 243, 243, 243, 243, 243, 243, 243],
      [243, 243, 243, 243, 243, 243, 243, 243, 243, 243, 243, 243, 243, 243, 243],
      [243, 218, 243, 243, 243, 243, 243, 243, 243, 243, 243, 244, 243, 243, 243],
      [243, 243, 243, 243, 243, 243, 243, 243, 243, 243, 243, 243, 243, 243, 243] ],
    [ [0, 0, 0, 0, 0, 0, 0, 0, 0, 0, 0, 0, 0, 0, 0],
      [0, 0, 0, 0, 0, 26, 27, 28, 29, 30, 31, 0, 0, 0, 0],
      [0, 0, 0, 0, 0, 51, 52, 53, 54, 55, 56, 0, 0, 0, 0],
      [0, 0, 0, 0, 0, 76, 77, 78, 79, 80, 81, 0, 0, 0, 0],
      [0, 0, 0, 0, 0, 101, 102, 103, 104, 105, 106, 0, 0, 0, 0],
      [0, 0, 0, 0, 0, 126, 127, 128, 129, 130, 131, 0, 0, 0, 0],
      [0, 0, 0, 0, 0, 303, 303, 245, 242, 303, 303, 0, 0, 0, 0],
      [0, 0, 0, 0, 0, 0, 0, 245, 242, 0, 0, 0, 0, 0, 0],
      [0, 0, 0, 0, 0, 0, 0, 245, 242, 0, 0, 0, 0, 0, 0],
      [0, 0, 0, 0, 0, 0, 0, 245, 242, 0, 0, 0, 0, 0, 0],
      [0, 0, 0, 0, 0, 0, 0, 245, 242, 0, 0, 0, 0, 0, 0],
      [0, 0, 0, 0, 0, 0, 0, 245, 242, 0, 0, 0, 0, 0, 0],
      [0, 0, 0, 0, 0, 0, 0, 245, 242, 0, 0, 0, 0, 0, 0],
      [0, 0, 0, 0, 0, 0, 0, 245, 242, 0, 0, 0, 0, 0, 0],
      [0, 0, 0, 0, 0, 0, 0, 245, 242, 0, 0, 0, 0, 0, 0] ] ]

/-- The textbox layers built by `loadGame`. -/
def loadGameTextBoxLayers : List (List (List Int)) :=
  [ [ [400, 400, 400, 400, 400, 400, 400, 400, 400, 400, 400, 400, 400, 400, 400],
      [400, 400, 400, 400, 400, 400, 400, 400, 400, 400, 400, 400, 400, 400, 400],
      [400, 400, 400, 400, 400, 400, 400, 400, 400, 400, 400, 400, 400, 400, 400],
      [400, 400, 400, 400, 400, 400, 400, 400, 400, 400, 400, 400, 400, 400, 400],
      [400, 400, 400, 400, 400, 400, 400, 400, 400, 400, 400, 400, 400, 400, 400] ] ]

/-- Function `loadGame` of `main.go`; the fields it does not mention take Go zero values. -/
def loadGame : Game :=
  { count := 0
    moveCount := 0
    protaganistPosition := { X := f64OfInt (screenWidth / 2), Y := f64OfInt (screenHeight / 2) }
    keys := []
    layers := loadGameLayers
    showTextBox := false
    textBoxLayers := loadGameTextBoxLayers
    currText := "" }

/-! ## UpdateLoop -/

/-- One iteration of `for layerNum, layer := range newLayers` in the second block of
`drawBackgroundLayers`. -/
def shiftLayerVertical (difference : F64) (newLayers : List (List (List Int)))
    (layerNum : Nat) : Option (List (List (List Int))) := do
  let layer ← indexAt newLayers layerNum
  if f64Lt (f64OfInt 0) difference then do
    let shifted ← ShiftLayerUp layer (goInt difference)
    storeAt newLayers layerNum shifted
  else if f64Lt difference (f64OfInt 0) then do
    let shifted ← ShiftLayerDown layer (goInt (f64Abs difference))
    storeAt newLayers layerNum shifted
  else pure newLayers

/-- The second block of `drawBackgroundLayers`, guarded by
`if g.protaganistPosition.Y != proY`. -/
def verticalStep (g : Game) (newLayers : List (List (List Int))) :
    Option (List (List (List Int))) :=
  if f64Ne g.protaganistPosition.Y (f64OfInt proY) then
    let difference := f64Sub g.protaganistPosition.Y (f64OfInt proY)
    (List.range newLayers.length).foldlM (shiftLayerVertical difference) newLayers
  else some newLayers

/-- A call of `screen.DrawImage` or `ebitenutil.DebugPrint` issued on the screen:
`tile` and `runner` record the translation `(dx, dy)` and the top-left corner `(sx, sy)`
of the source rectangle, `textBox` the translation of the overlay image. -/
inductive DrawOp where
  | tile (dx dy : F64) (sx sy : Int)
  | runner (dx dy : F64) (sx sy : Int)
  | textBox (dx dy : F64)
  | debugPrint
  deriving DecidableEq

def frameOX : Int := 0
def frameOY : Int := 32
def frameWidth : Int := 32
def frameHeight : Int := 32
def frameNum : Int := 8

/-- The constant `xNum = screenWidth / tileSize` of `drawBackgroundLayers`. -/
def xNum : Int := screenWidth / tileSize

/-- The loop `for _, ml := range sl { l = append(l, ml...) }` of `drawBackgroundLayers`. -/
def flattenLayer (sl : List (List Int)) : List Int :=
  sl.foldl (fun l ml => l ++ ml) []

/-- The loop `for i, t := range l` of `drawBackgroundLayers`, started at position `i`;
Go `%` and `/` on `int` truncate toward zero. -/
def drawTilesFrom : Nat → List Int → List DrawOp
  | _, [] => []
  | i, t :: rest =>
      DrawOp.tile
          (goFloat (wrap64 (Int.tmod (i : Int) xNum * tileSize)))
          (goFloat (wrap64 (Int.tdiv (i : Int) xNum * tileSize)))
          (Int.tmod t tileXNum * tileSize)
          (Int.tdiv t tileXNum * tileSize)
        :: drawTilesFrom (i + 1) rest

/-- The third block of `drawBackgroundLayers`: the draws issued for the layers, in order. -/
def drawLayers : List (List (List Int)) → List DrawOp
  | [] => []
  | sl :: rest => drawTilesFrom 0 (flattenLayer sl) ++ drawLayers rest

/-- Function `drawBackgroundLayers` of `main.go`: the draws it issues on the screen. -/
def drawBackgroundLayers (g : Game) (newLayers : List (List (List Int))) :
    Option (List DrawOp) := do
  let newLayers ← horizontalStep g newLayers
  let newLayers ← verticalStep g newLayers
  pure (drawLayers newLayers)

/-- Function `drawProtaganistMain` of `main.go`. -/
def drawProtaganistMain (g : Game) (x y : F64) : List DrawOp :=
  let i := Int.tmod (Int.tdiv g.count 5) frameNum
  let sx := frameOX + i * frameWidth
  let sy := frameOY
  [DrawOp.runner x y sx sy]

/-- Function `drawTextBox` of `main.go`. -/
def drawTextBox (_g : Game) (_x _y : F64) (_newLayers : List (List (List Int))) (show_ : Bool) :
    List DrawOp :=
  if !show_ then []
  else [DrawOp.textBox (f64OfInt 0) (f64OfInt (screenHeight - screenHeight / 3))]

/-- Function `resetDrawValues` of `main.go`. -/
def resetDrawValues (g : Game) : Game × List DrawOp :=
  ({ g with keys := [] }, [DrawOp.debugPrint])

/-- Function `Game.Draw` of `main.go`: the state after the call and the draws issued. -/
def Draw (g : Game) : Option (Game × List DrawOp) := do
  let g ← collectUserInput g screenWidth screenHeight
  let newLayers ← DuplicateLayers g.layers
  let background ← drawBackgroundLayers g newLayers
  let runner := drawProtaganistMain g (f64OfInt proX) (f64OfInt proY)
  let textLayers ← DuplicateLayers g.textBoxLayers
  let text := drawTextBox g (f64OfInt 0) (f64OfInt 0) textLayers true
  let reset := resetDrawValues g
  pure (reset.1, background ++ runner ++ text ++ reset.2)

/-! ## LayerStore: dumps

Go strings are modelled as lists of characters. -/

/-- Decimal rendering of an `int` by `fmt.Sprint`. -/
def decimal : Int → List Char
  | Int.ofNat n => Nat.toDigits 10 n
  | Int.negSucc n => '-' :: Nat.toDigits 10 (n + 1)

/-- Go `strings.Join(elems, sep)`. -/
def goJoin (sep : List Char) : List (List Char) → List Char
  | [] => []
  | [w] => w
  | w :: ws => w ++ sep ++ goJoin sep ws

/-- Go `fmt.Sprint(a)` for `a []int`: the values in decimal, separated by one space,
inside square brackets. -/
def fmtSprint (a : List Int) : List Char :=
  '[' :: (goJoin [' '] (a.map decimal) ++ [']'])

/-- Go `unicode.IsSpace`. -/
def isSpace (c : Char) : Bool :=
  c.toNat = 9 || c.toNat = 10 || c.toNat = 11 || c.toNat = 12 || c.toNat = 13
    || c.toNat = 32 || c.toNat = 133 || c.toNat = 160 || c.toNat = 5760
    || (8192 ≤ c.toNat && c.toNat ≤ 8202) || c.toNat = 8232 || c.toNat = 8233
    || c.toNat = 8239 || c.toNat = 8287 || c.toNat = 12288

/-- Go `strings.Fields(s)`, with the field being read in `cur`: the maximal runs of
non-space characters. -/
def fieldsFrom : List Char → List Char → List (List Char)
  | [], cur => if cur = [] then [] else [cur]
  | c :: cs, cur =>
      if isSpace c then
        (if cur = [] then fieldsFrom cs [] else cur :: fieldsFrom cs [])
      else fieldsFrom cs (cur ++ [c])

/-- Go `strings.Fields(s)`. -/
def goFields (s : List Char) : List (List Char) := fieldsFrom s []

/-- Go `strings.Trim(s, cutset)`: drops the leading and the trailing characters that
belong to `cutset`. -/
def goTrim (s cutset : List Char) : List Char :=
  ((s.dropWhile (fun c => decide (c ∈ cutset))).reverse.dropWhile
    (fun c => decide (c ∈ cutset))).reverse

/-- Function `DumpIntArr` of `main.go`. -/
def DumpIntArr (a : List Int) : List Char :=
  goTrim (goJoin [','] (goFields (fmtSprint a))) ['[', ']']

/-- Function `DumpLayer` of `main.go`. -/
def DumpLayer (a : List (List Int)) : List Char :=
  a.foldl (fun newString row => (newString ++ DumpIntArr row) ++ ['\n']) []

/-! ## LayerStore with explicit storage

To speak about shared storage, the backing arrays of the `[]int` rows are kept in a store
and a row is a slice header pointing into it. The slices of row headers and of layer
headers stay values: `DuplicateLayers` allocates them itself with `make`. -/

/-- A Go slice header of type `[]int`: the cells `off, ..., off + len - 1` of the backing
array stored at address `arr`. The `nil` slice has `len = 0`. -/
structure RowRef where
  arr : Nat
  off : Nat
  len : Nat
  deriving DecidableEq

/-- The contents of the row `r` in the store `st`; `none` when the header does not fit
its backing array. -/
def readRow (st : List (List Int)) (r : RowRef) : Option (List Int) :=
  if r.len = 0 then some []
  else do
    let a ← indexAt st r.arr
    if r.off + r.len ≤ a.length then some ((a.drop r.off).take r.len) else none

/-- Go `r[c] = v` on a row in the store: panics when `c` is out of range. -/
def writeCell (st : List (List Int)) (r : RowRef) (c : Nat) (v : Int) :
    Option (List (List Int)) :=
  if c < r.len then do
    let a ← indexAt st r.arr
    let a ← storeAt a (r.off + c) v
    storeAt st r.arr a
  else none

/-- The inner loop of `DuplicateLayers` on the store: `make([]int, len(row))` allocates a
new backing array at the next free address, `copy(newRow, row)` fills it. -/
def duplicateRowsStoreFrom :
    Nat → List RowRef → List (List Int) → List RowRef → Option (List (List Int) × List RowRef)
  | _, [], st, newLayer => some (st, newLayer)
  | rowIndex, row :: rest, st, newLayer => do
      let zeros ← makeInts row.len
      let newRow : RowRef := { arr := st.length, off := 0, len := row.len }
      let st := st ++ [zeros]
      let src ← readRow st row
      let st ← storeAt st newRow.arr (goCopy zeros src)
      let newLayer ← storeAt newLayer rowIndex newRow
      duplicateRowsStoreFrom (rowIndex + 1) rest st newLayer

/-- The outer loop of `DuplicateLayers` on the store; `make([][]int, k)` is `k` nil rows. -/
def duplicateLayersStoreFrom :
    Nat → List (List RowRef) → List (List Int) → List (List RowRef) →
      Option (List (List Int) × List (List RowRef))
  | _, [], st, newLayers => some (st, newLayers)
  | layerIndex, layer :: rest, st, newLayers => do
      let sizeRow ← indexAt layer layerIndex
      let newLayer : List RowRef := List.replicate sizeRow.len { arr := 0, off := 0, len := 0 }
      let (st, newLayer) ← duplicateRowsStoreFrom 0 layer st newLayer
      let newLayers ← storeAt newLayers layerIndex newLayer
      duplicateLayersStoreFrom (layerIndex + 1) rest st newLayers

/-- Function `DuplicateLayers` of `main.go` on the store: the store after the call and the
headers of the duplicate. -/
def DuplicateLayersStore (st : List (List Int)) (layers : List (List RowRef)) :
    Option (List (List Int) × List (List RowRef)) :=
  duplicateLayersStoreFrom 0 layers st (List.replicate layers.length [])

/-! ## Auxiliary lemmas on the slice primitives and the shift functions -/

theorem makeInts_natCast (n : Nat) : makeInts (n : Int) = some (List.replicate n 0) := by
  simp [makeInts]

theorem sliceFrom_natCast {α : Type} (a : List α) (n : Nat) (h : n ≤ a.length) :
    sliceFrom a (n : Int) = some (a.drop n) := by
  have h2 : ¬ ((a.length : Int) < (n : Int)) := by omega
  simp [sliceFrom, h2]

theorem sliceTo_sub {α : Type} (a : List α) (n : Nat) (h : n ≤ a.length) :
    sliceTo a ((a.length : Int) - (n : Int)) = some (a.take (a.length - n)) := by
  have h1 : ¬ ((a.length : Int) - (n : Int) < 0) := by omega
  have h3 : ((a.length : Int) - (n : Int)).toNat = a.length - n := by omega
  simp [sliceTo, h1, h3]

/-- Closed form of `ShiftIntArrRight` on a non-negative shift. -/
theorem ShiftIntArrRight_eq (R : List Int) (n : Nat) :
    ShiftIntArrRight R (n : Int)
      = some (R.drop n ++ List.replicate (min n R.length) 0) := by
  unfold ShiftIntArrRight
  by_cases h : (R.length : Int) < (n : Int)
  · have h1 : R.length ≤ n := by omega
    have h2 : min n R.length = R.length := by omega
    simp [h, makeInts_natCast, List.drop_eq_nil_of_le h1, h2]
  · have h1 : n ≤ R.length := by omega
    have h2 : min n R.length = n := by omega
    simp [h, makeInts_natCast, sliceFrom_natCast R n h1, h2]

/-- Closed form of `ShiftIntArrLeft` on a non-negative shift. -/
theorem ShiftIntArrLeft_eq (R : List Int) (n : Nat) :
    ShiftIntArrLeft R (n : Int)
      = some (List.replicate (min n R.length) 0 ++ R.take (R.length - n)) := by
  unfold ShiftIntArrLeft
  by_cases h : (R.length : Int) < (n : Int)
  · have h1 : R.length - n = 0 := by omega
    have h2 : min n R.length = R.length := by omega
    simp [h, makeInts_natCast, h1, h2]
  · have h1 : n ≤ R.length := by omega
    have h2 : min n R.length = n := by omega
    simp [h, makeInts_natCast, sliceTo_sub R n h1, h2]

theorem foldlM_appendZeroRow (rowLen : Nat) (l : List Nat) (acc : List (List Int)) :
    l.foldlM (fun acc _ => do
        let newRow ← makeInts rowLen
        pure (acc ++ [newRow])) acc
      = some (acc ++ List.replicate l.length (List.replicate rowLen 0)) := by
  generalize hf : (fun (acc : List (List Int)) (_ : Nat) => do
        let newRow ← makeInts rowLen
        pure (acc ++ [newRow])) = f
  have hstep : ∀ (a : List (List Int)) (x : Nat),
      f a x = some (a ++ [List.replicate rowLen 0]) := by
    intro a x
    subst hf
    simp [makeInts_natCast]
  induction l generalizing acc with
  | nil => simp
  | cons x xs ih =>
    rw [List.foldlM_cons, hstep]
    simp only [Option.some_bind, Option.bind_eq_bind]
    rw [ih]
    simp [List.replicate_succ]

theorem appendZeroRows_eq (newArr : List (List Int)) (rowLen n : Nat) :
    appendZeroRows newArr rowLen (n : Int)
      = some (newArr ++ List.replicate n (List.replicate rowLen 0)) := by
  unfold appendZeroRows
  rw [foldlM_appendZeroRow]
  simp

theorem foldl_appendRow (newRow : List Int) (l acc : List (List Int)) :
    l.foldl (fun newLayer _ => newLayer ++ [newRow]) acc
      = acc ++ List.replicate l.length newRow := by
  induction l generalizing acc with
  | nil => simp
  | cons x xs ih => simp [ih, List.replicate_succ]

theorem overflowLayer_eq (G : List (List Int)) (hG : G ≠ []) :
    overflowLayer G = some (List.replicate G.length (List.replicate (G.head hG).length 0)) := by
  cases G with
  | nil => exact absurd rfl hG
  | cons r rs =>
    simp [overflowLayer, indexAt, makeInts_natCast, foldl_appendRow, List.replicate_succ]

/-- Closed form of `ShiftLayerUp` on a non-empty grid and a non-negative shift. -/
theorem ShiftLayerUp_eq (G : List (List Int)) (n : Nat) (hG : G ≠ []) :
    ShiftLayerUp G (n : Int)
      = some (G.drop n ++ List.replicate (min n G.length)
          (List.replicate (G.head hG).length 0)) := by
  have hlen : G.length ≠ 0 := by
    intro h; exact hG (List.length_eq_zero.mp h)
  unfold ShiftLayerUp
  by_cases h : (n : Int) ≥ (G.length : Int)
  · have h1 : G.length ≤ n := by omega
    have h2 : min n G.length = G.length := by omega
    simp [hlen, h, overflowLayer_eq G hG, List.drop_eq_nil_of_le h1, h2]
  · have h1 : n ≤ G.length := by omega
    have h2 : min n G.length = n := by omega
    have h0 : indexAt G 0 = some (G.head hG) := by
      cases G with
      | nil => exact absurd rfl hG
      | cons r rs => simp [indexAt]
    simp [hlen, h, sliceFrom_natCast G n h1, h0, appendZeroRows_eq, h2]

/-- Closed form of `ShiftLayerDown` on a non-empty grid and a non-negative shift. -/
theorem ShiftLayerDown_eq (G : List (List Int)) (n : Nat) (hG : G ≠ []) :
    ShiftLayerDown G (n : Int)
      = some (List.replicate (min n G.length) (List.replicate (G.head hG).length 0)
          ++ G.take (G.length - n)) := by
  have hlen : G.length ≠ 0 := by
    intro h; exact hG (List.length_eq_zero.mp h)
  unfold ShiftLayerDown
  by_cases h : (n : Int) ≥ (G.length : Int)
  · have h1 : G.length - n = 0 := by omega
    have h2 : min n G.length = G.length := by omega
    simp [hlen, h, overflowLayer_eq G hG, h1, h2]
  · have h1 : n ≤ G.length := by omega
    have h2 : min n G.length = n := by omega
    have h0 : indexAt G 0 = some (G.head hG) := by
      cases G with
      | nil => exact absurd rfl hG
      | cons r rs => simp [indexAt]
    simp [hlen, h, sliceTo_sub G n h1, h0, appendZeroRows_eq, h2]

theorem getElem?_drop_append_replicate {α : Type} (L : List α) (z : α) (n i : Nat) :
    (L.drop n ++ List.replicate (min n L.length) z)[i]?
      = if i + n < L.length then L[i + n]? else if i < L.length then some z else none := by
  by_cases h : i + n < L.length
  · have h1 : i < (L.drop n).length := by simp; omega
    rw [List.getElem?_append_left h1, List.getElem?_drop, if_pos h, Nat.add_comm]
  · have h1 : (L.drop n).length ≤ i := by simp; omega
    rw [List.getElem?_append_right h1, if_neg h, List.getElem?_replicate]
    simp only [List.length_drop]
    by_cases h2 : i < L.length
    · have h3 : i - (L.length - n) < min n L.length := by omega
      simp [h2, h3]
    · have h3 : ¬ (i - (L.length - n) < min n L.length) := by omega
      simp [h2, h3]

theorem getElem?_replicate_append_take {α : Type} (L : List α) (z : α) (n i : Nat) :
    (List.replicate (min n L.length) z ++ L.take (L.length - n))[i]?
      = if i < L.length then (if i < n then some z else L[i - n]?) else none := by
  have hl : (List.replicate (min n L.length) z).length = min n L.length :=
    List.length_replicate _ _
  by_cases h0 : i < L.length
  · rw [if_pos h0]
    by_cases h2 : i < n
    · have h1 : i < (List.replicate (min n L.length) z).length := by omega
      have h3 : i < min n L.length := by omega
      rw [List.getElem?_append_left h1, List.getElem?_replicate, if_pos h2, if_pos h3]
    · have h1 : (List.replicate (min n L.length) z).length ≤ i := by omega
      have h5 : min n L.length = n := by omega
      have h7 : i - n < L.length - n := by omega
      rw [List.getElem?_append_right h1, List.length_replicate, List.getElem?_take, h5,
        if_neg h2, if_pos h7]
  · rw [if_neg h0, List.getElem?_eq_none_iff]
    simp
    omega

/-! ## GridShifter: row shifts -/

/-- C1: for every row `R` and shift `n ≥ 0`, `ShiftIntArrRight R n` returns a row of
`len(R)` cells whose cell `i` is `R[i+n]` when `i+n < len(R)` and `0` otherwise; it is the
all-zero row when `n ≥ len(R)`; and `[1,2,3,4,5]` shifted by 2 is `[3,4,5,0,0]`. -/
theorem ShiftIntArrRight_cells (R : List Int) (n : Nat) :
    (∃ S, ShiftIntArrRight R (n : Int) = some S ∧ S.length = R.length ∧
      (∀ i (h : i + n < R.length), S[i]? = some (R[i + n])) ∧
      (∀ i, i < R.length → R.length ≤ i + n → S[i]? = some 0) ∧
      (R.length ≤ n → S = List.replicate R.length 0)) ∧
    ShiftIntArrRight [1, 2, 3, 4, 5] 2 = some [3, 4, 5, 0, 0] := by
  refine ⟨⟨_, ShiftIntArrRight_eq R n, ?_, ?_, ?_, ?_⟩, by decide⟩
  · simp; omega
  · intro i h
    rw [getElem?_drop_append_replicate, if_pos h, List.getElem?_eq_getElem h]
  · intro i hi hn
    have h : ¬ (i + n < R.length) := by omega
    rw [getElem?_drop_append_replicate, if_neg h, if_pos hi]
  · intro hn
    have h2 : min n R.length = R.length := by omega
    simp [List.drop_eq_nil_of_le hn, h2]

/-- C2: for every row `R` and shift `n ≥ 0`, `ShiftIntArrLeft R n` returns a row of
`len(R)` cells whose cell `i` is `R[i-n]` when `i ≥ n` and `0` when `i < n`; it is the
all-zero row when `n ≥ len(R)`; and `[1,2,3,4,5]` shifted by 2 is `[0,0,1,2,3]`. -/
theorem ShiftIntArrLeft_cells (R : List Int) (n : Nat) :
    (∃ S, ShiftIntArrLeft R (n : Int) = some S ∧ S.length = R.length ∧
      (∀ i (h : i < R.length), n ≤ i → S[i]? = some (R.get ⟨i - n, by omega⟩)) ∧
      (∀ i, i < R.length → i < n → S[i]? = some 0) ∧
      (R.length ≤ n → S = List.replicate R.length 0)) ∧
    ShiftIntArrLeft [1, 2, 3, 4, 5] 2 = some [0, 0, 1, 2, 3] := by
  refine ⟨⟨_, ShiftIntArrLeft_eq R n, ?_, ?_, ?_, ?_⟩, by decide⟩
  · simp; omega
  · intro i h hn
    have h1 : ¬ (i < n) := by omega
    have h2 : i - n < R.length := by omega
    rw [getElem?_replicate_append_take, if_pos h, if_neg h1, List.getElem?_eq_getElem h2]
    rfl
  · intro i hi hn
    rw [getElem?_replicate_append_take, if_pos hi, if_pos hn]
  · intro hn
    have h1 : R.length - n = 0 := by omega
    have h2 : min n R.length = R.length := by omega
    simp [h1, h2]

/-! ## GridShifter: grid shifts -/

/-- C3: for every non-empty grid `G = row0 :: rest` and shift `n ≥ 0`, `ShiftLayerUp G n`
returns a grid of `len(G)` rows whose row `i` is `G[i+n]` when `i+n < len(G)` and otherwise
an all-zero row of length `len(G[0])`; when `n ≥ len(G)` every row is that all-zero row
(so a 3-row grid shifted up by 5 gives 3 all-zero rows of the original row length). -/
theorem ShiftLayerUp_rows (row0 : List Int) (rest : List (List Int)) (n : Nat) :
    (∃ S, ShiftLayerUp (row0 :: rest) (n : Int) = some S ∧
      S.length = (row0 :: rest).length ∧
      (∀ i (h : i + n < (row0 :: rest).length), S[i]? = some ((row0 :: rest)[i + n])) ∧
      (∀ i, i < (row0 :: rest).length → (row0 :: rest).length ≤ i + n →
        S[i]? = some (List.replicate row0.length 0)) ∧
      ((row0 :: rest).length ≤ n →
        S = List.replicate (row0 :: rest).length (List.replicate row0.length 0))) ∧
    ShiftLayerUp [[1, 2], [3, 4], [5, 6]] 5 = some [[0, 0], [0, 0], [0, 0]] := by
  refine ⟨⟨_, ShiftLayerUp_eq (row0 :: rest) n (List.cons_ne_nil _ _), ?_, ?_, ?_, ?_⟩,
    by decide⟩
  · simp only [List.length_append, List.length_drop, List.length_replicate]; omega
  · intro i h
    rw [getElem?_drop_append_replicate, if_pos h, List.getElem?_eq_getElem h]
  · intro i hi hn
    have h : ¬ (i + n < (row0 :: rest).length) := by omega
    rw [getElem?_drop_append_replicate, if_neg h, if_pos hi]
    rfl
  · intro hn
    have h2 : min n (row0 :: rest).length = (row0 :: rest).length := by omega
    rw [List.drop_eq_nil_of_le hn, h2]
    rfl

/-- C4: for every non-empty grid `G = row0 :: rest` and shift `n ≥ 0`, `ShiftLayerDown G n`
returns a grid of `len(G)` rows whose row `i` is `G[i-n]` when `i ≥ n` and an all-zero row
of length `len(G[0])` when `i < n`; when `n ≥ len(G)` every row is that all-zero row. -/
theorem ShiftLayerDown_rows (row0 : List Int) (rest : List (List Int)) (n : Nat) :
    ∃ S, ShiftLayerDown (row0 :: rest) (n : Int) = some S ∧
      S.length = (row0 :: rest).length ∧
      (∀ i (h : i < (row0 :: rest).length), n ≤ i →
        S[i]? = some ((row0 :: rest).get ⟨i - n, by omega⟩)) ∧
      (∀ i, i < (row0 :: rest).length → i < n →
        S[i]? = some (List.replicate row0.length 0)) ∧
      ((row0 :: rest).length ≤ n →
        S = List.replicate (row0 :: rest).length (List.replicate row0.length 0)) := by
  refine ⟨_, ShiftLayerDown_eq (row0 :: rest) n (List.cons_ne_nil _ _), ?_, ?_, ?_, ?_⟩
  · simp only [List.length_append, List.length_take, List.length_replicate]; omega
  · intro i h hn
    have h1 : ¬ (i < n) := by omega
    have h2 : i - n < (row0 :: rest).length := by omega
    rw [getElem?_replicate_append_take, if_pos h, if_neg h1, List.getElem?_eq_getElem h2]
    rfl
  · intro i hi hn
    rw [getElem?_replicate_append_take, if_pos hi, if_pos hn]
    rfl
  · intro hn
    have h1 : (row0 :: rest).length - n = 0 := by omega
    have h2 : min n (row0 :: rest).length = (row0 :: rest).length := by omega
    rw [h1, h2, List.take_zero, List.append_nil]
    rfl

/-! ## LayerStore: duplication -/

/-- C5: on the textbox stack of `loadGame` (one layer of 5 rows by 15 columns)
`DuplicateLayers` returns a layer of 15 rows, the 5 copied rows followed by 10 empty rows,
because the new layer is sized by `len(layer[layerIndex])` (the column count) and not by
the row count; `AreLayerSame` of that layer and the original is false. -/
theorem DuplicateLayers_textbox_rows :
    DuplicateLayers loadGameTextBoxLayers
      = some [List.replicate 5 (List.replicate 15 400) ++ List.replicate 10 []] ∧
    AreLayerSame (List.replicate 5 (List.replicate 15 400) ++ List.replicate 10 [])
      (List.replicate 5 (List.replicate 15 400)) = some false ∧
    loadGameTextBoxLayers = [List.replicate 5 (List.replicate 15 400)] := by
  decide

/-! ## GridShifter: right shift followed by left shift -/

/-- C6, as stated, fails: for `R = [1,2,3,4,5]` and `n = 2` the row
`ShiftIntArrLeft(ShiftIntArrRight(R, 2), 2)` is `[0,0,3,4,5]`, so positions `[0, 3)` are not
restored and the remaining cells are not all `0`. -/
theorem shift_right_then_left_counterexample :
    ¬ (∃ S, (ShiftIntArrRight [1, 2, 3, 4, 5] 2).bind (fun T => ShiftIntArrLeft T 2) = some S ∧
        (∀ i, i < 5 - 2 → S[i]? = ([1, 2, 3, 4, 5] : List Int)[i]?) ∧
        (∀ i, 5 - 2 ≤ i → i < 5 → S[i]? = some 0)) := by
  rintro ⟨S, hS, hfront, -⟩
  have hval : (ShiftIntArrRight [1, 2, 3, 4, 5] 2).bind (fun T => ShiftIntArrLeft T 2)
      = some [0, 0, 3, 4, 5] := by decide
  rw [hval] at hS
  have hS2 : S = [0, 0, 3, 4, 5] := (Option.some.inj hS).symm
  subst hS2
  have h0 := hfront 0 (by decide)
  exact absurd h0 (by decide)

/-- C6, amended: for every row `R` and `n` with `0 ≤ n < len(R)`, the row
`S = ShiftIntArrLeft(ShiftIntArrRight(R, n), n)` has `len(R)` cells, keeps the original
values in positions `[n, len(R))` and holds `0` in positions `[0, n)`. -/
theorem shift_right_then_left (R : List Int) (n : Nat) (hn : n < R.length) :
    ∃ S, (ShiftIntArrRight R (n : Int)).bind (fun T => ShiftIntArrLeft T (n : Int)) = some S ∧
      S.length = R.length ∧
      (∀ i, n ≤ i → i < R.length → S[i]? = R[i]?) ∧
      (∀ i, i < n → S[i]? = some 0) := by
  have hlen : (R.drop n ++ List.replicate (min n R.length) (0 : Int)).length = R.length := by
    simp only [List.length_append, List.length_drop, List.length_replicate]; omega
  have hval : (ShiftIntArrRight R (n : Int)).bind (fun T => ShiftIntArrLeft T (n : Int))
      = some (List.replicate
            (min n (R.drop n ++ List.replicate (min n R.length) (0 : Int)).length) 0
          ++ (R.drop n ++ List.replicate (min n R.length) (0 : Int)).take
            ((R.drop n ++ List.replicate (min n R.length) (0 : Int)).length - n)) := by
    rw [ShiftIntArrRight_eq, Option.some_bind, ShiftIntArrLeft_eq]
  refine ⟨_, hval, ?_, ?_, ?_⟩
  · simp only [List.length_append, List.length_take, List.length_replicate, hlen]; omega
  · intro i h1 h2
    have h3 : ¬ (i < n) := by omega
    have h4 : i - n + n < R.length := by omega
    have h5 : i - n + n = i := by omega
    rw [getElem?_replicate_append_take, hlen, if_pos h2, if_neg h3,
      getElem?_drop_append_replicate, if_pos h4, h5]
  · intro i h1
    have h2 : i < R.length := by omega
    rw [getElem?_replicate_append_take, hlen, if_pos h2, if_pos h1]

theorem shift_right_then_left_witness :
    2 < ([1, 2, 3, 4, 5] : List Int).length ∧
    ∃ S, (ShiftIntArrRight [1, 2, 3, 4, 5] ((2 : Nat) : Int)).bind
        (fun T => ShiftIntArrLeft T ((2 : Nat) : Int)) = some S ∧
      S.length = ([1, 2, 3, 4, 5] : List Int).length ∧
      (∀ i, 2 ≤ i → i < ([1, 2, 3, 4, 5] : List Int).length →
        S[i]? = ([1, 2, 3, 4, 5] : List Int)[i]?) ∧
      (∀ i, i < 2 → S[i]? = some 0) :=
  ⟨by decide, shift_right_then_left [1, 2, 3, 4, 5] 2 (by decide)⟩

/-! ## GridShifter: rectangularity and totality -/

/-- C9: for every rectangular grid `G` (all rows of length `c`) and every `n ≥ 0`, each of
`ShiftLayerUp G n`, `ShiftLayerDown G n` and the grids obtained by applying
`ShiftIntArrRight . n` or `ShiftIntArrLeft . n` to every row of `G` has as many rows as `G`
and all rows of length `c`. -/
theorem shifts_preserve_rectangular (G : List (List Int)) (c n : Nat)
    (hrect : ∀ row ∈ G, row.length = c) :
    (∃ S, ShiftLayerUp G (n : Int) = some S ∧ S.length = G.length ∧
      ∀ row ∈ S, row.length = c) ∧
    (∃ S, ShiftLayerDown G (n : Int) = some S ∧ S.length = G.length ∧
      ∀ row ∈ S, row.length = c) ∧
    (∃ S : List (List Int), G.map (fun row => ShiftIntArrRight row (n : Int)) = S.map some ∧
      S.length = G.length ∧ ∀ row ∈ S, row.length = c) ∧
    (∃ S : List (List Int), G.map (fun row => ShiftIntArrLeft row (n : Int)) = S.map some ∧
      S.length = G.length ∧ ∀ row ∈ S, row.length = c) := by
  refine ⟨?_, ?_, ?_, ?_⟩
  · cases G with
    | nil => exact ⟨[], by simp [ShiftLayerUp], rfl, by simp⟩
    | cons row0 rest =>
      have h0 : row0.length = c := hrect row0 (List.mem_cons_self _ _)
      refine ⟨_, ShiftLayerUp_eq (row0 :: rest) n (List.cons_ne_nil _ _), ?_, ?_⟩
      · simp only [List.length_append, List.length_drop, List.length_replicate]; omega
      · intro row hrow
        rcases List.mem_append.mp hrow with h | h
        · exact hrect row (List.mem_of_mem_drop h)
        · rw [(List.mem_replicate.mp h).2]
          simpa using h0
  · cases G with
    | nil => exact ⟨[], by simp [ShiftLayerDown], rfl, by simp⟩
    | cons row0 rest =>
      have h0 : row0.length = c := hrect row0 (List.mem_cons_self _ _)
      refine ⟨_, ShiftLayerDown_eq (row0 :: rest) n (List.cons_ne_nil _ _), ?_, ?_⟩
      · simp only [List.length_append, List.length_take, List.length_replicate]; omega
      · intro row hrow
        rcases List.mem_append.mp hrow with h | h
        · rw [(List.mem_replicate.mp h).2]
          simpa using h0
        · exact hrect row (List.mem_of_mem_take h)
  · refine ⟨G.map (fun row => row.drop n ++ List.replicate (min n row.length) 0), ?_, ?_, ?_⟩
    · simp [ShiftIntArrRight_eq]
    · simp
    · intro row hrow
      rcases List.mem_map.mp hrow with ⟨r, hr, rfl⟩
      have := hrect r hr
      simp only [List.length_append, List.length_drop, List.length_replicate]; omega
  · refine ⟨G.map (fun row => List.replicate (min n row.length) 0
        ++ row.take (row.length - n)), ?_, ?_, ?_⟩
    · simp [ShiftIntArrLeft_eq]
    · simp
    · intro row hrow
      rcases List.mem_map.mp hrow with ⟨r, hr, rfl⟩
      have := hrect r hr
      simp only [List.length_append, List.length_take, List.length_replicate]; omega

theorem shifts_preserve_rectangular_witness :
    (∀ row ∈ ([[1, 2], [3, 4], [5, 6]] : List (List Int)), row.length = 2) ∧
    ((∃ S, ShiftLayerUp [[1, 2], [3, 4], [5, 6]] ((1 : Nat) : Int) = some S ∧
        S.length = ([[1, 2], [3, 4], [5, 6]] : List (List Int)).length ∧
        ∀ row ∈ S, row.length = 2) ∧
      (∃ S, ShiftLayerDown [[1, 2], [3, 4], [5, 6]] ((1 : Nat) : Int) = some S ∧
        S.length = ([[1, 2], [3, 4], [5, 6]] : List (List Int)).length ∧
        ∀ row ∈ S, row.length = 2) ∧
      (∃ S : List (List Int), ([[1, 2], [3, 4], [5, 6]] : List (List Int)).map
          (fun row => ShiftIntArrRight row ((1 : Nat) : Int)) = S.map some ∧
        S.length = ([[1, 2], [3, 4], [5, 6]] : List (List Int)).length ∧
        ∀ row ∈ S, row.length = 2) ∧
      (∃ S : List (List Int), ([[1, 2], [3, 4], [5, 6]] : List (List Int)).map
          (fun row => ShiftIntArrLeft row ((1 : Nat) : Int)) = S.map some ∧
        S.length = ([[1, 2], [3, 4], [5, 6]] : List (List Int)).length ∧
        ∀ row ∈ S, row.length = 2)) :=
  ⟨by decide, shifts_preserve_rectangular [[1, 2], [3, 4], [5, 6]] 2 1 (by decide)⟩

/-- C10: the four shift operations are total for non-negative shifts: for every row `R`,
every grid `G` (the empty row, the empty grid and a grid whose first row is empty included)
and every `n ≥ 0` each of them returns a value (no out-of-range index or slice bound); on
the empty grid `ShiftLayerUp` and `ShiftLayerDown` return the empty grid for every shift. -/
theorem shifts_total (R : List Int) (G : List (List Int)) (n : Nat) :
    (∃ S, ShiftIntArrRight R (n : Int) = some S) ∧
    (∃ S, ShiftIntArrLeft R (n : Int) = some S) ∧
    (∃ S, ShiftLayerUp G (n : Int) = some S) ∧
    (∃ S, ShiftLayerDown G (n : Int) = some S) ∧
    (∃ S, ShiftIntArrRight [] (n : Int) = some S) ∧
    (∃ S, ShiftIntArrLeft [] (n : Int) = some S) ∧
    (∃ S, ShiftLayerUp ([] :: G) (n : Int) = some S) ∧
    (∃ S, ShiftLayerDown ([] :: G) (n : Int) = some S) ∧
    (∀ m : Int, ShiftLayerUp [] m = some [] ∧ ShiftLayerDown [] m = some []) := by
  have hup : ∀ H : List (List Int), ∃ S, ShiftLayerUp H (n : Int) = some S := by
    intro H
    cases H with
    | nil => exact ⟨[], by simp [ShiftLayerUp]⟩
    | cons row0 rest => exact ⟨_, ShiftLayerUp_eq (row0 :: rest) n (List.cons_ne_nil _ _)⟩
  have hdown : ∀ H : List (List Int), ∃ S, ShiftLayerDown H (n : Int) = some S := by
    intro H
    cases H with
    | nil => exact ⟨[], by simp [ShiftLayerDown]⟩
    | cons row0 rest => exact ⟨_, ShiftLayerDown_eq (row0 :: rest) n (List.cons_ne_nil _ _)⟩
  refine ⟨⟨_, ShiftIntArrRight_eq R n⟩, ⟨_, ShiftIntArrLeft_eq R n⟩, hup G, hdown G,
    ⟨_, ShiftIntArrRight_eq [] n⟩, ⟨_, ShiftIntArrLeft_eq [] n⟩, hup _, hdown _, ?_⟩
  intro m
  simp [ShiftLayerUp, ShiftLayerDown]

/-! ## LayerStore: totality of the duplication -/

/-- C11: `DuplicateLayers` panics on stacks of rectangular layers: on one layer of 2 rows
by 1 column (more rows than columns; the store `newLayer[1]` is out of range), on a
third layer with a single row (`layer[2]` is out of range) and on a single empty layer
(`layer[0]` is out of range). -/
theorem DuplicateLayers_panics :
    DuplicateLayers [[[1], [2]]] = none ∧
    DuplicateLayers [[[5]], [[1, 2], [3, 4]], [[7]]] = none ∧
    DuplicateLayers [[]] = none := by
  decide

/-! ## LayerStore: structural equality -/

theorem areIntArrSameFrom_eq (b : List Int) (a : List Int) (index : Nat)
    (h : index + a.length ≤ b.length) :
    areIntArrSameFrom b index a = some (decide (a = (b.drop index).take a.length)) := by
  induction a generalizing index with
  | nil => simp [areIntArrSameFrom]
  | cons val rest ih =>
    have hlt : index < b.length := by simp only [List.length_cons] at h; omega
    have hrest : index + 1 + rest.length ≤ b.length := by
      simp only [List.length_cons] at h; omega
    have hdrop : (b.drop index).take (val :: rest).length
        = b[index] :: (b.drop (index + 1)).take rest.length := by
      rw [List.drop_eq_getElem_cons hlt]
      rfl
    rw [hdrop]
    simp only [areIntArrSameFrom, indexAt, List.getElem?_eq_getElem hlt, Option.some_bind,
      Option.bind_eq_bind]
    by_cases hv : val = b[index]
    · simp [hv, ih (index + 1) hrest]
    · simp [hv]

/-- Closed form of `AreIntArrSame`. -/
theorem AreIntArrSame_eq (a b : List Int) : AreIntArrSame a b = some (decide (a = b)) := by
  unfold AreIntArrSame
  by_cases h : a.length = b.length
  · have h1 := areIntArrSameFrom_eq b a 0 (by omega)
    simp only [List.drop_zero, h, List.take_length] at h1
    simp [h, h1]
  · have hne : a ≠ b := fun hab => h (by rw [hab])
    simp [h, hne]

theorem areLayerSameFrom_eq (b : List (List Int)) (a : List (List Int)) (rowIndex : Nat)
    (h : rowIndex + a.length ≤ b.length) :
    areLayerSameFrom b rowIndex a = some (decide (a = (b.drop rowIndex).take a.length)) := by
  induction a generalizing rowIndex with
  | nil => simp [areLayerSameFrom]
  | cons row rest ih =>
    have hlt : rowIndex < b.length := by simp only [List.length_cons] at h; omega
    have hrest : rowIndex + 1 + rest.length ≤ b.length := by
      simp only [List.length_cons] at h; omega
    have hdrop : (b.drop rowIndex).take (row :: rest).length
        = b[rowIndex] :: (b.drop (rowIndex + 1)).take rest.length := by
      rw [List.drop_eq_getElem_cons hlt]
      rfl
    rw [hdrop]
    simp only [areLayerSameFrom, indexAt, List.getElem?_eq_getElem hlt, Option.some_bind,
      Option.bind_eq_bind, AreIntArrSame_eq]
    by_cases hv : row = b[rowIndex]
    · simp [hv, ih (rowIndex + 1) hrest]
    · simp [hv]

/-- Closed form of `AreLayerSame`. -/
theorem AreLayerSame_eq (a b : List (List Int)) : AreLayerSame a b = some (decide (a = b)) := by
  unfold AreLayerSame
  by_cases h : a.length = b.length
  · have h1 := areLayerSameFrom_eq b a 0 (by omega)
    simp only [List.drop_zero, h, List.take_length] at h1
    simp [h, h1]
  · have hne : a ≠ b := fun hab => h (by rw [hab])
    simp [h, hne]

theorem list_eq_iff_getElem? {α : Type} (a b : List α) :
    a = b ↔ a.length = b.length ∧ ∀ i, i < a.length → a[i]? = b[i]? := by
  constructor
  · rintro rfl
    exact ⟨rfl, fun _ _ => rfl⟩
  · rintro ⟨hlen, hcell⟩
    apply List.ext_getElem? 
    intro i
    by_cases hi : i < a.length
    · exact hcell i hi
    · have h1 : a.length ≤ i := by omega
      have h2 : b.length ≤ i := by omega
      rw [List.getElem?_eq_none_iff.mpr h1, List.getElem?_eq_none_iff.mpr h2]

/-- C14: `AreIntArrSame` and `AreLayerSame` always return (no index out of range);
`AreIntArrSame a b` is true exactly when `a` and `b` have the same length and equal values
at every index; `AreLayerSame A B` is true exactly when `A` and `B` have the same number
of rows and `AreIntArrSame A[i] B[i]` is true for every row index `i`. -/
theorem AreSame_structural (a b : List Int) (A B : List (List Int)) :
    (∃ r, AreIntArrSame a b = some r) ∧
    (AreIntArrSame a b = some true ↔
      a.length = b.length ∧ ∀ i, i < a.length → a[i]? = b[i]?) ∧
    (∃ r, AreLayerSame A B = some r) ∧
    (AreLayerSame A B = some true ↔
      A.length = B.length ∧
        ∀ i (hA : i < A.length) (hB : i < B.length),
          AreIntArrSame (A.get ⟨i, hA⟩) (B.get ⟨i, hB⟩) = some true) := by
  refine ⟨⟨_, AreIntArrSame_eq a b⟩, ?_, ⟨_, AreLayerSame_eq A B⟩, ?_⟩
  · rw [AreIntArrSame_eq, ← list_eq_iff_getElem?]
    simp
  · rw [AreLayerSame_eq]
    simp only [Option.some.injEq, decide_eq_true_eq, AreIntArrSame_eq]
    constructor
    · rintro rfl
      exact ⟨rfl, fun _ _ _ => rfl⟩
    · rintro ⟨hlen, hrow⟩
      apply List.ext_get hlen
      intro i hA hB
      exact hrow i hA hB

/-! ## LayerStore: dumps -/

theorem digitChar_mem (m : Nat) (h : m < 10) : Nat.digitChar m ∈ "0123456789-".toList := by
  interval_cases m <;> decide

theorem toDigitsCore_chars (fuel : Nat) :
    ∀ (n : Nat) (ds : List Char), (∀ c ∈ ds, c ∈ "0123456789-".toList) →
      ∀ c ∈ Nat.toDigitsCore 10 fuel n ds, c ∈ "0123456789-".toList := by
  induction fuel with
  | zero => intro n ds hds c hc; exact hds c (by simpa [Nat.toDigitsCore] using hc)
  | succ fuel ih =>
    intro n ds hds c hc
    have hd : ∀ x ∈ Nat.digitChar (n % 10) :: ds, x ∈ "0123456789-".toList := by
      intro x hx
      rcases List.mem_cons.mp hx with rfl | hx
      · exact digitChar_mem _ (Nat.mod_lt _ (by decide))
      · exact hds x hx
    simp only [Nat.toDigitsCore] at hc
    split at hc
    · exact hd c hc
    · exact ih _ _ hd c hc

theorem toDigitsCore_ne_nil (fuel : Nat) :
    ∀ (n : Nat) (ds : List Char), ds ≠ [] → Nat.toDigitsCore 10 fuel n ds ≠ [] := by
  induction fuel with
  | zero => intro n ds hds; simpa [Nat.toDigitsCore] using hds
  | succ fuel ih =>
    intro n ds _
    simp only [Nat.toDigitsCore]
    split
    · exact List.cons_ne_nil _ _
    · exact ih _ _ (List.cons_ne_nil _ _)

theorem toDigits_ne_nil (n : Nat) : Nat.toDigits 10 n ≠ [] := by
  simp only [Nat.toDigits, Nat.toDigitsCore]
  split
  · exact List.cons_ne_nil _ _
  · exact toDigitsCore_ne_nil _ _ _ (List.cons_ne_nil _ _)

theorem decimal_ne_nil (i : Int) : decimal i ≠ [] := by
  cases i with
  | ofNat n => exact toDigits_ne_nil n
  | negSucc n => exact List.cons_ne_nil _ _

theorem decimal_chars (i : Int) : ∀ c ∈ decimal i, c ∈ "0123456789-".toList := by
  cases i with
  | ofNat n =>
    exact toDigitsCore_chars _ _ [] (by simp)
  | negSucc n =>
    intro c hc
    rcases List.mem_cons.mp hc with rfl | hc
    · decide
    · exact toDigitsCore_chars _ _ [] (by simp) c hc

theorem decimalChar_clean : ∀ c ∈ "0123456789-".toList,
    isSpace c = false ∧ c ∉ ['[', ']'] ∧ c ≠ ',' := by
  decide

theorem goJoin_cons_cons (sep w v : List Char) (ws : List (List Char)) :
    goJoin sep (w :: v :: ws) = w ++ sep ++ goJoin sep (v :: ws) := rfl

theorem goJoin_eq_intercalate (sep : List Char) (ws : List (List Char)) :
    goJoin sep ws = List.intercalate sep ws := by
  induction ws with
  | nil => rfl
  | cons w rest ih =>
    cases rest with
    | nil => simp [goJoin, List.intercalate]
    | cons v rest2 =>
      rw [goJoin_cons_cons, ih]
      simp [List.intercalate]

theorem goJoin_chars (P : Char → Prop) (sep : List Char) (hsep : ∀ c ∈ sep, P c)
    (ws : List (List Char)) (hws : ∀ w ∈ ws, ∀ c ∈ w, P c) :
    ∀ c ∈ goJoin sep ws, P c := by
  induction ws with
  | nil => intro c hc; simp [goJoin] at hc
  | cons w rest ih =>
    have hw := hws w (List.mem_cons_self _ _)
    have hrest : ∀ v ∈ rest, ∀ c ∈ v, P c := fun v hv => hws v (List.mem_cons_of_mem _ hv)
    cases rest with
    | nil => intro c hc; exact hw c (by simpa [goJoin] using hc)
    | cons v rest2 =>
      intro c hc
      rw [goJoin_cons_cons] at hc
      rcases List.mem_append.mp hc with h | h
      · rcases List.mem_append.mp h with h | h
        · exact hw c h
        · exact hsep c h
      · exact ih hrest c h

theorem fieldsFrom_cons_nonspace (c : Char) (cs cur : List Char) (h : isSpace c = false) :
    fieldsFrom (c :: cs) cur = fieldsFrom cs (cur ++ [c]) := by
  simp [fieldsFrom, h]

theorem fieldsFrom_cons_space (c : Char) (cs cur : List Char) (h : isSpace c = true)
    (hcur : cur ≠ []) :
    fieldsFrom (c :: cs) cur = cur :: fieldsFrom cs [] := by
  simp [fieldsFrom, h, hcur]

theorem fieldsFrom_append (w : List Char) (hw : ∀ c ∈ w, isSpace c = false) :
    ∀ (cur rest : List Char), fieldsFrom (w ++ rest) cur = fieldsFrom rest (cur ++ w) := by
  induction w with
  | nil => intro cur rest; simp
  | cons c cs ih =>
    intro cur rest
    have hc : isSpace c = false := hw c (List.mem_cons_self _ _)
    have hcs : ∀ x ∈ cs, isSpace x = false := fun x hx => hw x (List.mem_cons_of_mem _ hx)
    rw [List.cons_append, fieldsFrom_cons_nonspace c _ cur hc, ih hcs]
    simp

/-- The fields of space-separated words, re-joined by `sep`. -/
theorem goJoin_fieldsFrom (sep post : List Char) (hpost : ∀ c ∈ post, isSpace c = false)
    (ds : List (List Char)) :
    ∀ (d cur : List Char), d ≠ [] → (∀ c ∈ d, isSpace c = false) →
      (∀ w ∈ ds, w ≠ [] ∧ ∀ c ∈ w, isSpace c = false) →
      fieldsFrom (goJoin [' '] (d :: ds) ++ post) cur ≠ [] ∧
      goJoin sep (fieldsFrom (goJoin [' '] (d :: ds) ++ post) cur)
        = cur ++ goJoin sep (d :: ds) ++ post := by
  induction ds with
  | nil =>
    intro d cur hd hdc _
    have h1 : fieldsFrom (goJoin [' '] [d] ++ post) cur = [cur ++ d ++ post] := by
      have hne : cur ++ d ++ post ≠ [] := by
        intro h
        have := List.append_eq_nil.mp h
        exact hd (List.append_eq_nil.mp this.1).2
      show fieldsFrom (d ++ post) cur = _
      rw [fieldsFrom_append d hdc, ← List.append_nil post, fieldsFrom_append post hpost]
      simp [fieldsFrom, hd]
    rw [h1]
    exact ⟨List.cons_ne_nil _ _, rfl⟩
  | cons d2 ds ih =>
    intro d cur hd hdc hds
    have hd2 := hds d2 (List.mem_cons_self _ _)
    have hrest : ∀ w ∈ ds, w ≠ [] ∧ ∀ c ∈ w, isSpace c = false :=
      fun w hw => hds w (List.mem_cons_of_mem _ hw)
    obtain ⟨hne, hjoin⟩ := ih d2 [] hd2.1 hd2.2 hrest
    have hcur : cur ++ d ≠ [] := by
      intro h
      exact hd (List.append_eq_nil.mp h).2
    have h1 : fieldsFrom (goJoin [' '] (d :: d2 :: ds) ++ post) cur
        = (cur ++ d) :: fieldsFrom (goJoin [' '] (d2 :: ds) ++ post) [] := by
      rw [goJoin_cons_cons, List.append_assoc, List.append_assoc, fieldsFrom_append d hdc]
      have hsp : isSpace ' ' = true := by decide
      rw [List.singleton_append, fieldsFrom_cons_space ' ' _ (cur ++ d) hsp hcur]
    rw [h1]
    refine ⟨List.cons_ne_nil _ _, ?_⟩
    obtain ⟨v, vs, hv⟩ := List.exists_cons_of_ne_nil hne
    rw [hv, goJoin_cons_cons, ← hv, hjoin, goJoin_cons_cons]
    simp

theorem goTrim_brackets (body : List Char) (hbody : ∀ c ∈ body, c ∉ ['[', ']']) :
    goTrim ('[' :: (body ++ [']'])) ['[', ']'] = body := by
  cases body with
  | nil => decide
  | cons b bs =>
    have hb : b ∉ ['[', ']'] := hbody b (List.mem_cons_self _ _)
    have h1 : ('[' :: ((b :: bs) ++ [']'])).dropWhile (fun c => decide (c ∈ ['[', ']']))
        = (b :: bs) ++ [']'] := by
      simp [List.dropWhile, hb]
    obtain ⟨front, l, hl⟩ : ∃ front l, b :: bs = front ++ [l] := by
      rcases List.eq_nil_or_concat (b :: bs) with h | ⟨front, l, h⟩
      · exact absurd h (List.cons_ne_nil _ _)
      · exact ⟨front, l, by simpa using h⟩
    have hlm : l ∉ ['[', ']'] := hbody l (by rw [hl]; simp)
    have h2 : decide (l ∈ ['[', ']']) = false := by simpa using hlm
    unfold goTrim
    rw [h1, hl, List.append_assoc, List.reverse_append, List.reverse_append]
    simp only [List.reverse_cons, List.reverse_nil, List.nil_append, List.singleton_append,
      List.cons_append]
    rw [List.dropWhile_cons_of_pos (by decide), List.dropWhile_cons_of_neg (by simpa using h2)]
    simp

/-- Closed form of `DumpIntArr`: the decimal renderings joined by single commas. -/
theorem DumpIntArr_eq (a : List Int) :
    DumpIntArr a = List.intercalate [','] (a.map decimal) := by
  cases a with
  | nil => decide
  | cons x xs =>
    have hsp : ∀ i : Int, ∀ c ∈ decimal i, isSpace c = false :=
      fun i c hc => (decimalChar_clean c (decimal_chars i c hc)).1
    have hwords : ∀ w ∈ xs.map decimal, w ≠ [] ∧ ∀ c ∈ w, isSpace c = false := by
      intro w hw
      obtain ⟨i, _, rfl⟩ := List.mem_map.mp hw
      exact ⟨decimal_ne_nil i, hsp i⟩
    have hfields := (goJoin_fieldsFrom [','] [']'] (by decide) (xs.map decimal)
      (decimal x) ['['] (decimal_ne_nil x) (hsp x) hwords).2
    have hstart : goFields (fmtSprint (x :: xs))
        = fieldsFrom (goJoin [' '] (decimal x :: xs.map decimal) ++ [']']) ['['] := by
      have hb : isSpace '[' = false := by decide
      simp [goFields, fmtSprint, fieldsFrom, hb]
    have hbody : ∀ c ∈ goJoin [','] (decimal x :: xs.map decimal), c ∉ ['[', ']'] := by
      apply goJoin_chars (fun c => c ∉ ['[', ']']) [','] (by decide)
      intro w hw c hc
      have hdec : ∃ i : Int, w = decimal i := by
        rcases List.mem_cons.mp hw with h | h
        · exact ⟨x, h⟩
        · obtain ⟨i, _, hi⟩ := List.mem_map.mp h
          exact ⟨i, hi.symm⟩
      obtain ⟨i, rfl⟩ := hdec
      exact (decimalChar_clean c (decimal_chars i c hc)).2.1
    unfold DumpIntArr
    rw [hstart, hfields, ← goJoin_eq_intercalate]
    exact goTrim_brackets _ hbody

theorem foldl_dumpRows (G : List (List Int)) (acc : List Char) :
    G.foldl (fun newString row => (newString ++ DumpIntArr row) ++ ['\n']) acc
      = acc ++ (G.map (fun row => DumpIntArr row ++ ['\n'])).flatten := by
  induction G generalizing acc with
  | nil => simp
  | cons row rest ih =>
    rw [List.foldl_cons, ih]
    simp

/-- C13, as stated, fails: the dump of `[[1,2],[3,4]]` is `"1,2\n3,4\n"`, with a newline
after the last row too, and not the rows joined by single newlines, `"1,2\n3,4"`. -/
theorem DumpLayer_newline_counterexample :
    DumpLayer [[1, 2], [3, 4]] = "1,2\n3,4\n".toList ∧
    DumpLayer [[1, 2], [3, 4]] ≠ "1,2\n3,4".toList ∧
    DumpLayer [[1, 2], [3, 4]]
      ≠ List.intercalate ['\n']
          (([[1, 2], [3, 4]] : List (List Int)).map
            (fun row => List.intercalate [','] (row.map decimal))) := by
  decide

/-- C13, amended: for every grid `G`, `DumpLayer G` is the concatenation of the row
strings of `G`, each followed by a single newline character, where each row string is the
decimal renderings of the values of the row joined by a single comma (no brackets, no
spaces); so the dump of `[[1,2],[3,4]]` is `"1,2\n3,4\n"`. -/
theorem DumpLayer_rows (G : List (List Int)) :
    DumpLayer G
      = (G.map (fun row => List.intercalate [','] (row.map decimal) ++ ['\n'])).flatten ∧
    (∀ row ∈ G, DumpIntArr row = List.intercalate [','] (row.map decimal)) ∧
    (∀ (i : Int), ∀ c ∈ decimal i, c ∈ "0123456789-".toList) ∧
    DumpLayer [[1, 2], [3, 4]] = "1,2\n3,4\n".toList := by
  refine ⟨?_, fun row _ => DumpIntArr_eq row, decimal_chars, by decide⟩
  unfold DumpLayer
  rw [foldl_dumpRows]
  simp [DumpIntArr_eq]

/-! ## LayerStore: the duplicate shares no storage -/

theorem set_length_append_singleton {α : Type} (st : List α) (z x : α) :
    (st ++ [z]).set st.length x = st ++ [x] := by
  induction st with
  | nil => rfl
  | cons y ys ih => simp [ih]

theorem duplicateRowsStoreFrom_fresh (base : Nat) (rows : List RowRef) :
    ∀ (rowIndex : Nat) (st : List (List Int)) (newLayer : List RowRef)
      (st1 : List (List Int)) (newLayer1 : List RowRef),
      duplicateRowsStoreFrom rowIndex rows st newLayer = some (st1, newLayer1) →
      base ≤ st.length →
      (∀ r ∈ newLayer, r.len = 0 ∨ base ≤ r.arr) →
      (∃ ext, st1 = st ++ ext) ∧ (∀ r ∈ newLayer1, r.len = 0 ∨ base ≤ r.arr) := by
  induction rows with
  | nil =>
    intro rowIndex st newLayer st1 newLayer1 h hbase hfresh
    simp only [duplicateRowsStoreFrom, Option.some.injEq, Prod.mk.injEq] at h
    obtain ⟨rfl, rfl⟩ := h
    exact ⟨⟨[], by simp⟩, hfresh⟩
  | cons row rest ih =>
    intro rowIndex st newLayer st1 newLayer1 h hbase hfresh
    simp only [duplicateRowsStoreFrom, makeInts_natCast, Option.some_bind, Option.bind_eq_bind,
      Option.bind_eq_some] at h
    obtain ⟨src, -, st2, hst2, newLayer2, hnl2, hrec⟩ := h
    have hst2eq : st2 = st ++ [goCopy (List.replicate row.len 0) src] := by
      simp only [storeAt, List.length_append, List.length_singleton] at hst2
      rw [if_pos (by omega)] at hst2
      rw [← Option.some.inj hst2, set_length_append_singleton]
    have hnl2eq : newLayer2 = newLayer.set rowIndex ⟨st.length, 0, row.len⟩ := by
      simp only [storeAt] at hnl2
      split at hnl2
      · exact (Option.some.inj hnl2).symm
      · exact Option.noConfusion hnl2
    have hfresh2 : ∀ r ∈ newLayer2, r.len = 0 ∨ base ≤ r.arr := by
      intro r hr
      rw [hnl2eq] at hr
      rcases List.mem_or_eq_of_mem_set hr with h1 | h1
      · exact hfresh r h1
      · right; rw [h1]; exact hbase
    have hbase2 : base ≤ st2.length := by
      rw [hst2eq, List.length_append]; omega
    obtain ⟨⟨ext, hext⟩, hres⟩ := ih (rowIndex + 1) st2 newLayer2 st1 newLayer1 hrec hbase2 hfresh2
    refine ⟨⟨[goCopy (List.replicate row.len 0) src] ++ ext, ?_⟩, hres⟩
    rw [hext, hst2eq, List.append_assoc]

theorem duplicateLayersStoreFrom_fresh (base : Nat) (layers : List (List RowRef)) :
    ∀ (layerIndex : Nat) (st : List (List Int)) (newLayers : List (List RowRef))
      (st1 : List (List Int)) (newLayers1 : List (List RowRef)),
      duplicateLayersStoreFrom layerIndex layers st newLayers = some (st1, newLayers1) →
      base ≤ st.length →
      (∀ layer ∈ newLayers, ∀ r ∈ layer, r.len = 0 ∨ base ≤ r.arr) →
      (∃ ext, st1 = st ++ ext) ∧
        (∀ layer ∈ newLayers1, ∀ r ∈ layer, r.len = 0 ∨ base ≤ r.arr) := by
  induction layers with
  | nil =>
    intro layerIndex st newLayers st1 newLayers1 h hbase hfresh
    simp only [duplicateLayersStoreFrom, Option.some.injEq, Prod.mk.injEq] at h
    obtain ⟨rfl, rfl⟩ := h
    exact ⟨⟨[], by simp⟩, hfresh⟩
  | cons layer rest ih =>
    intro layerIndex st newLayers st1 newLayers1 h hbase hfresh
    simp only [duplicateLayersStoreFrom, Option.bind_eq_bind, Option.bind_eq_some] at h
    obtain ⟨sizeRow, -, ⟨st2, newLayer2⟩, hrows, newLayers2, hnl2, hrec⟩ := h
    obtain ⟨⟨ext2, hext2⟩, hfresh2⟩ := duplicateRowsStoreFrom_fresh base layer 0 st
      (List.replicate sizeRow.len ⟨0, 0, 0⟩) st2 newLayer2 hrows hbase
      (by
        intro r hr
        left
        rw [(List.mem_replicate.mp hr).2])
    have hnl2eq : newLayers2 = newLayers.set layerIndex newLayer2 := by
      simp only [storeAt] at hnl2
      split at hnl2
      · exact (Option.some.inj hnl2).symm
      · exact Option.noConfusion hnl2
    have hfresh3 : ∀ l ∈ newLayers2, ∀ r ∈ l, r.len = 0 ∨ base ≤ r.arr := by
      intro l hl
      rw [hnl2eq] at hl
      rcases List.mem_or_eq_of_mem_set hl with h1 | h1
      · exact hfresh l h1
      · rw [h1]; exact hfresh2
    have hbase2 : base ≤ st2.length := by
      rw [hext2, List.length_append]; omega
    obtain ⟨⟨ext, hext⟩, hres⟩ :=
      ih (layerIndex + 1) st2 newLayers2 st1 newLayers1 hrec hbase2 hfresh3
    refine ⟨⟨ext2 ++ ext, ?_⟩, hres⟩
    rw [hext, hext2, List.append_assoc]

theorem readRow_congr (st1 st2 : List (List Int)) (r : RowRef)
    (h : r.len = 0 ∨ st1[r.arr]? = st2[r.arr]?) : readRow st1 r = readRow st2 r := by
  rcases h with h | h
  · simp [readRow, h]
  · simp [readRow, indexAt, h]

theorem readRow_addr_lt (st : List (List Int)) (r : RowRef) (row : List Int)
    (h : readRow st r = some row) : r.len = 0 ∨ r.arr < st.length := by
  by_cases hlen : r.len = 0
  · exact Or.inl hlen
  · right
    by_contra hc
    have hnone : st[r.arr]? = none := List.getElem?_eq_none_iff.mpr (by omega)
    simp [readRow, hlen, indexAt, hnone] at h

theorem writeCell_other (st st2 : List (List Int)) (d : RowRef) (c : Nat) (v : Int)
    (h : writeCell st d c v = some st2) (i : Nat) (hi : i ≠ d.arr) :
    st2[i]? = st[i]? := by
  unfold writeCell at h
  split at h
  · simp only [Option.bind_eq_bind, Option.bind_eq_some] at h
    obtain ⟨a, -, a2, -, hst⟩ := h
    simp only [storeAt] at hst
    split at hst
    · rw [← Option.some.inj hst, List.getElem?_set_ne (Ne.symm hi)]
    · exact Option.noConfusion hst
  · exact Option.noConfusion h

/-- C12: the duplicate shares no storage with the original. For every store `st` and
every layer stack `L` whose rows are stored in `st`, if `DuplicateLayers` returns the
duplicate `D` (in the store `st1`), then the rows of `L` have the same contents in `st1`
as in `st`, and after an in-place write of any value `v` to any cell `c` of any row `d` of
any layer of `D` every row of `L` still has the contents it had in `st`. -/
theorem DuplicateLayers_no_shared_storage (st st1 st2 : List (List Int))
    (L D : List (List RowRef)) (layerD : List RowRef) (d : RowRef) (c : Nat) (v : Int)
    (hL : ∀ layer ∈ L, ∀ row ∈ layer, (readRow st row).isSome = true)
    (hdup : DuplicateLayersStore st L = some (st1, D))
    (hlayer : layerD ∈ D) (hd : d ∈ layerD)
    (hwrite : writeCell st1 d c v = some st2) :
    ∀ layer ∈ L, ∀ row ∈ layer,
      readRow st1 row = readRow st row ∧ readRow st2 row = readRow st row := by
  obtain ⟨⟨ext, hext⟩, hfresh⟩ := duplicateLayersStoreFrom_fresh st.length L 0 st
    (List.replicate L.length []) st1 D hdup (le_refl _)
    (by
      intro layer hlayer r hr
      rw [(List.mem_replicate.mp hlayer).2] at hr
      simp at hr)
  have hc : c < d.len := by
    by_contra hc
    simp [writeCell, hc] at hwrite
  have hdarr : st.length ≤ d.arr := by
    rcases hfresh layerD hlayer d hd with h | h
    · omega
    · exact h
  intro layer hlayerL row hrow
  obtain ⟨cells, hcells⟩ := Option.isSome_iff_exists.mp (hL layer hlayerL row hrow)
  have h1 : readRow st1 row = readRow st row := by
    apply readRow_congr
    rcases readRow_addr_lt st row cells hcells with h | h
    · exact Or.inl h
    · right
      rw [hext, List.getElem?_append_left h]
  refine ⟨h1, ?_⟩
  rw [← h1]
  apply readRow_congr
  rcases readRow_addr_lt st row cells hcells with h | h
  · exact Or.inl h
  · right
    exact writeCell_other st1 st2 d c v hwrite row.arr (by omega)

theorem DuplicateLayers_no_shared_storage_witness :
    (∀ layer ∈ ([[⟨0, 0, 2⟩, ⟨1, 0, 2⟩]] : List (List RowRef)), ∀ row ∈ layer,
      (readRow [[7, 8], [9, 10]] row).isSome = true) ∧
    DuplicateLayersStore [[7, 8], [9, 10]] [[⟨0, 0, 2⟩, ⟨1, 0, 2⟩]]
      = some ([[7, 8], [9, 10], [7, 8], [9, 10]], [[⟨2, 0, 2⟩, ⟨3, 0, 2⟩]]) ∧
    [⟨2, 0, 2⟩, ⟨3, 0, 2⟩] ∈ ([[⟨2, 0, 2⟩, ⟨3, 0, 2⟩]] : List (List RowRef)) ∧
    (⟨2, 0, 2⟩ : RowRef) ∈ ([⟨2, 0, 2⟩, ⟨3, 0, 2⟩] : List RowRef) ∧
    writeCell [[7, 8], [9, 10], [7, 8], [9, 10]] ⟨2, 0, 2⟩ 0 5
      = some [[7, 8], [9, 10], [5, 8], [9, 10]] ∧
    (∀ layer ∈ ([[⟨0, 0, 2⟩, ⟨1, 0, 2⟩]] : List (List RowRef)), ∀ row ∈ layer,
      readRow [[7, 8], [9, 10], [7, 8], [9, 10]] row = readRow [[7, 8], [9, 10]] row ∧
      readRow [[7, 8], [9, 10], [5, 8], [9, 10]] row = readRow [[7, 8], [9, 10]] row) :=
  ⟨by decide, by decide, by decide, by decide, by decide,
    DuplicateLayers_no_shared_storage [[7, 8], [9, 10]] [[7, 8], [9, 10], [7, 8], [9, 10]]
      [[7, 8], [9, 10], [5, 8], [9, 10]] [[⟨0, 0, 2⟩, ⟨1, 0, 2⟩]] [[⟨2, 0, 2⟩, ⟨3, 0, 2⟩]]
      [⟨2, 0, 2⟩, ⟨3, 0, 2⟩] ⟨2, 0, 2⟩ 0 5 (by decide) (by decide) (by decide) (by decide)
      (by decide)⟩

/-- On a layer of 2 rows by 3 columns the duplication on the store and the duplication on
values agree: the rows of the duplicate read back as the result of `DuplicateLayers`. -/
theorem DuplicateLayersStore_agrees_example :
    DuplicateLayersStore [[1, 2, 3], [4, 5, 6]] [[⟨0, 0, 3⟩, ⟨1, 0, 3⟩]]
      = some ([[1, 2, 3], [4, 5, 6], [1, 2, 3], [4, 5, 6]],
          [[⟨2, 0, 3⟩, ⟨3, 0, 3⟩, ⟨0, 0, 0⟩]]) ∧
    ([⟨2, 0, 3⟩, ⟨3, 0, 3⟩, ⟨0, 0, 0⟩] : List RowRef).map
        (readRow [[1, 2, 3], [4, 5, 6], [1, 2, 3], [4, 5, 6]])
      = [some [1, 2, 3], some [4, 5, 6], some []] ∧
    DuplicateLayers [[[1, 2, 3], [4, 5, 6]]] = some [[[1, 2, 3], [4, 5, 6], []]] := by
  decide

/-! ## Machine numbers: lemmas -/

theorem wrap64_of_range (z : Int) (h1 : -9223372036854775808 ≤ z)
    (h2 : z < 9223372036854775808) : wrap64 z = z := by
  unfold wrap64
  omega

theorem f64Scale_pos : 0 < f64Scale := by
  unfold f64Scale
  exact_mod_cast Nat.pos_pow_of_pos 1074 (by decide)

theorem f64Scale_natAbs : f64Scale.natAbs = 2 ^ 1074 := by
  unfold f64Scale
  exact Int.natAbs_ofNat _

theorem f64OfInt_zero : f64OfInt 0 = F64.finite 0 := by
  simp [f64OfInt]

theorem roundNat53_of_dvd (n : Nat) (h : 2 ^ (n.size - 53) ∣ n) : roundNat53 n = n := by
  unfold roundNat53
  by_cases hs : n.size ≤ 53
  · rw [if_pos hs]
  · rw [if_neg hs]
    have hmod : n % 2 ^ (n.size - 53) = 0 := Nat.mod_eq_zero_of_dvd h
    have hpos : 0 < 2 ^ (n.size - 53) := Nat.pos_pow_of_pos _ (by decide)
    have hcond : ¬ (2 * (n % 2 ^ (n.size - 53)) > 2 ^ (n.size - 53)
        ∨ (2 * (n % 2 ^ (n.size - 53)) = 2 ^ (n.size - 53)
            ∧ n / 2 ^ (n.size - 53) % 2 = 1)) := by
      rw [hmod]
      omega
    simp only [hcond, if_false]
    exact Nat.div_mul_cancel h

theorem roundNat53_exact (k t : Nat) (hk : k ≤ 2 ^ 53) :
    roundNat53 (k * 2 ^ t) = k * 2 ^ t := by
  apply roundNat53_of_dvd
  rcases Nat.eq_or_lt_of_le hk with hk2 | hk2
  · have hn : k * 2 ^ t = 2 ^ (53 + t) := by rw [hk2, pow_add]
    rw [hn, Nat.size_pow]
    exact pow_dvd_pow 2 (by omega)
  · have hlt : k * 2 ^ t < 2 ^ (53 + t) := by
      rw [pow_add]
      exact Nat.mul_lt_mul_of_pos_right hk2 (Nat.pos_pow_of_pos _ (by decide))
    have hsize : (k * 2 ^ t).size ≤ 53 + t := Nat.size_le.mpr hlt
    exact Dvd.dvd.mul_left (pow_dvd_pow 2 (by omega)) k

theorem roundNat53_lower (n : Nat) (hn : 0 < n) : 2 ^ (n.size - 1) ≤ roundNat53 n := by
  have hsz : 0 < n.size := Nat.size_pos.mpr hn
  have hle : 2 ^ (n.size - 1) ≤ n := Nat.lt_size.mp (by omega)
  unfold roundNat53
  by_cases hs : n.size ≤ 53
  · rw [if_pos hs]
    exact hle
  · rw [if_neg hs]
    have hpos : 0 < 2 ^ (n.size - 53) := Nat.pos_pow_of_pos _ (by decide)
    have hsplit : 2 ^ (n.size - 1) = 2 ^ 52 * 2 ^ (n.size - 53) := by
      rw [← pow_add]
      congr 1
      omega
    have hq : 2 ^ 52 ≤ n / 2 ^ (n.size - 53) := by
      rw [Nat.le_div_iff_mul_le hpos, ← hsplit]
      exact hle
    have h1 : 2 ^ (n.size - 1) ≤ n / 2 ^ (n.size - 53) * 2 ^ (n.size - 53) := by
      rw [hsplit]
      exact Nat.mul_le_mul_right _ hq
    have h2 : n / 2 ^ (n.size - 53) * 2 ^ (n.size - 53)
        ≤ (n / 2 ^ (n.size - 53) + 1) * 2 ^ (n.size - 53) :=
      Nat.mul_le_mul_right _ (Nat.le_succ _)
    simp only []
    split
    · exact le_trans h1 h2
    · exact h1

theorem roundNat53_pos (n : Nat) (hn : 0 < n) : 0 < roundNat53 n :=
  lt_of_lt_of_le (Nat.pos_pow_of_pos _ (by decide)) (roundNat53_lower n hn)

theorem roundUnits_eq_zero (z : Int) (h : roundUnits z = F64.finite 0) : z = 0 := by
  by_contra hz
  have hn : 0 < z.natAbs := Int.natAbs_pos.mpr hz
  have hm := roundNat53_pos z.natAbs hn
  unfold roundUnits at h
  split at h
  · split at h <;> exact F64.noConfusion h
  · have h2 := F64.finite.inj h
    split at h2 <;> omega

theorem roundUnits_zero : roundUnits 0 = F64.finite 0 := by
  simp [roundUnits, roundNat53]

theorem natAbs_mul_scale (z : Int) : (z * f64Scale).natAbs = z.natAbs * 2 ^ 1074 := by
  rw [Int.natAbs_mul, f64Scale_natAbs]

theorem roundUnits_exact (z : Int) (hz : z.natAbs ≤ 2 ^ 53) :
    roundUnits (z * f64Scale) = F64.finite (z * f64Scale) := by
  have hround : roundNat53 (z * f64Scale).natAbs = (z * f64Scale).natAbs := by
    rw [natAbs_mul_scale]
    exact roundNat53_exact _ _ hz
  have hsmall : ¬ ((z * f64Scale).natAbs ≥ 2 ^ 2098) := by
    rw [natAbs_mul_scale]
    have h1 : z.natAbs * 2 ^ 1074 ≤ 2 ^ 53 * 2 ^ 1074 := Nat.mul_le_mul_right _ hz
    have h2 : 2 ^ 53 * 2 ^ 1074 < 2 ^ 2098 := by
      rw [← pow_add]
      exact Nat.pow_lt_pow_right (by decide) (by decide)
    omega
  unfold roundUnits
  rw [hround, if_neg hsmall]
  congr 1
  split
  · omega
  · omega

theorem goFloat_exact (z : Int) (hz : z.natAbs ≤ 2 ^ 53) : goFloat z = f64OfInt z :=
  roundUnits_exact z hz

theorem f64Sub_ofInt (a b : Int) (h : (a - b).natAbs ≤ 2 ^ 53) :
    f64Sub (f64OfInt a) (f64OfInt b) = f64OfInt (a - b) := by
  have hsub : a * f64Scale - b * f64Scale = (a - b) * f64Scale := by ring
  simp only [f64Sub, f64OfInt]
  rw [hsub]
  exact roundUnits_exact _ h

theorem goInt_ofInt (z : Int) (h1 : -9223372036854775808 ≤ z)
    (h2 : z < 9223372036854775808) : goInt (f64OfInt z) = z := by
  have hdiv : Int.tdiv (z * f64Scale) f64Scale = z :=
    Int.mul_tdiv_cancel z (ne_of_gt f64Scale_pos)
  simp only [goInt, f64OfInt, hdiv]
  rw [if_pos ⟨h1, h2⟩]

theorem tdiv_scale_bounds (u : Int) (h : |u| < 9223372036854775808 * f64Scale) :
    -9223372036854775808 < Int.tdiv u f64Scale ∧ Int.tdiv u f64Scale < 9223372036854775808 := by
  have hs := f64Scale_pos
  have habs : (Int.tdiv u f64Scale).natAbs < 9223372036854775808 := by
    rw [Int.natAbs_tdiv]
    apply Nat.div_lt_of_lt_mul
    have h2 : ((u.natAbs : Nat) : Int) < ((f64Scale.natAbs * 9223372036854775808 : Nat) : Int) := by
      rw [Int.natCast_natAbs]
      push_cast
      rw [abs_of_pos hs]
      linarith
    exact_mod_cast h2
  omega

theorem goInt_finite (u : Int) (h : |u| < 9223372036854775808 * f64Scale) :
    goInt (F64.finite u) = Int.tdiv u f64Scale := by
  have hb := tdiv_scale_bounds u h
  simp only [goInt]
  rw [if_pos ⟨by omega, hb.2⟩]

theorem goInt_finite_nonneg (u : Int) (hu : 0 ≤ u) (h : |u| < 9223372036854775808 * f64Scale) :
    0 ≤ goInt (F64.finite u) := by
  rw [goInt_finite u h]
  exact Int.tdiv_nonneg hu (le_of_lt f64Scale_pos)

/-- An exact result of `2^63` or more converts, after rounding, to the indefinite `int`. -/
theorem goInt_roundUnits_large (z : Int) (hz : 9223372036854775808 * f64Scale ≤ z) :
    goInt (roundUnits z) = intIndefinite := by
  have hs := f64Scale_pos
  have hzpos : 0 < z := lt_of_lt_of_le (by positivity) hz
  have hnat : (9223372036854775808 * 2 ^ 1074 : Nat) ≤ z.natAbs := by
    have h2 : (((9223372036854775808 * 2 ^ 1074 : Nat) : Nat) : Int) ≤ ((z.natAbs : Nat) : Int) := by
      rw [Int.natCast_natAbs, abs_of_pos hzpos]
      have : ((9223372036854775808 * 2 ^ 1074 : Nat) : Int) = 9223372036854775808 * f64Scale := by
        unfold f64Scale
        push_cast
        rfl
      rw [this]
      exact hz
    exact_mod_cast h2
  have hpow : (9223372036854775808 * 2 ^ 1074 : Nat) = 2 ^ 1137 := by
    have : (9223372036854775808 : Nat) = 2 ^ 63 := by norm_num
    rw [this, ← pow_add]
  have hsize : 1137 < z.natAbs.size := Nat.lt_size.mpr (by rw [← hpow]; exact hnat)
  have hlow := roundNat53_lower z.natAbs (Int.natAbs_pos.mpr (ne_of_gt hzpos))
  have hmono : 2 ^ 1137 ≤ 2 ^ (z.natAbs.size - 1) :=
    Nat.pow_le_pow_right (by decide) (by omega)
  have hm : (9223372036854775808 * 2 ^ 1074 : Nat) ≤ roundNat53 z.natAbs := by
    rw [hpow]
    exact le_trans hmono hlow
  unfold roundUnits
  split
  · rw [if_neg (by omega)]
    rfl
  · rw [if_neg (by omega)]
    have hmInt : 9223372036854775808 * f64Scale ≤ ((roundNat53 z.natAbs : Nat) : Int) := by
      have : ((9223372036854775808 * 2 ^ 1074 : Nat) : Int) = 9223372036854775808 * f64Scale := by
        unfold f64Scale
        push_cast
        rfl
      rw [← this]
      exact_mod_cast hm
    have hdiv : 9223372036854775808 ≤ Int.tdiv ((roundNat53 z.natAbs : Nat) : Int) f64Scale := by
      rw [Int.tdiv_eq_ediv (Int.ofNat_nonneg _) (le_of_lt hs)]
      exact Int.le_ediv_of_mul_le hs hmInt
    simp only [goInt]
    rw [if_neg (by omega)]

theorem roundNat53_tie (t : Nat) :
    roundNat53 (9007199254740993 * 2 ^ t) = 9007199254740992 * 2 ^ t := by
  have hp : 0 < (2 : Nat) ^ t := Nat.pos_pow_of_pos _ (by decide)
  have h53 : (2 : Nat) ^ (53 + t) = 9007199254740992 * 2 ^ t := by
    rw [pow_add]
    norm_num
  have h54 : (2 : Nat) ^ (54 + t) = 18014398509481984 * 2 ^ t := by
    rw [pow_add]
    norm_num
  have hulp : (2 : Nat) ^ (54 + t - 53) = 2 * 2 ^ t := by
    have : 54 + t - 53 = t + 1 := by omega
    rw [this, pow_succ, Nat.mul_comm]
  have hsize : (9007199254740993 * 2 ^ t : Nat).size = 54 + t := by
    have h1 : 53 + t < (9007199254740993 * 2 ^ t : Nat).size := by
      rw [Nat.lt_size, h53]
      omega
    have h2 : (9007199254740993 * 2 ^ t : Nat).size ≤ 54 + t := by
      rw [Nat.size_le, h54]
      omega
    omega
  unfold roundNat53
  rw [hsize, if_neg (by omega), hulp]
  generalize (2 : Nat) ^ t = p at hp
  have hsplit : 9007199254740993 * p = 2 * p * 4503599627370496 + p := by ring
  have hq : 9007199254740993 * p / (2 * p) = 4503599627370496 := by
    rw [hsplit, Nat.mul_add_div (by omega), Nat.div_eq_of_lt (by omega)]
  have hr : 9007199254740993 * p % (2 * p) = p := by
    rw [hsplit, Nat.mul_add_mod, Nat.mod_eq_of_lt (by omega)]
  simp only [hq, hr]
  rw [if_neg (by omega)]
  ring

/-- The conversion `float64(2^53 + 1)` rounds to `2^53` (a tie, resolved to even). -/
theorem goFloat_tie : goFloat 9007199254740993 = f64OfInt 9007199254740992 := by
  have hn : (9007199254740993 * f64Scale).natAbs = 9007199254740993 * 2 ^ 1074 := by
    rw [natAbs_mul_scale]
    congr 1
  have hsmall : ¬ ((9007199254740992 * 2 ^ 1074 : Nat) ≥ 2 ^ 2098) := by
    have h1 : (9007199254740992 * 2 ^ 1074 : Nat) = 2 ^ (53 + 1074) := by
      rw [pow_add]
      norm_num
    have h2 : (2 : Nat) ^ (53 + 1074) < 2 ^ 2098 :=
      Nat.pow_lt_pow_right (by decide) (by decide)
    rw [h1]
    exact not_le.mpr h2
  have hnonneg : ¬ (9007199254740993 * f64Scale < 0) :=
    not_lt.mpr (le_of_lt (mul_pos (by norm_num) f64Scale_pos))
  unfold goFloat roundUnits
  rw [hn, roundNat53_tie, if_neg hsmall, if_neg hnonneg]
  unfold f64OfInt f64Scale
  push_cast
  rfl

theorem roundNat53_zero : roundNat53 0 = 0 := by
  simp [roundNat53]

/-- Rounding does not reach past the next power of two. -/
theorem roundNat53_upper (n : Nat) : roundNat53 n ≤ 2 ^ n.size := by
  have hlt : n < 2 ^ n.size := Nat.lt_size_self n
  unfold roundNat53
  split
  · exact le_of_lt hlt
  · rename_i hsz
    have hsz2 : 53 < n.size := by omega
    have hpow : 2 ^ n.size = 2 ^ 53 * 2 ^ (n.size - 53) := by
      rw [← pow_add]
      congr 1
      omega
    have hulp : 0 < 2 ^ (n.size - 53) := Nat.pow_pos (by decide)
    have hq : n / 2 ^ (n.size - 53) < 2 ^ 53 := by
      apply Nat.div_lt_of_lt_mul
      rw [Nat.mul_comm, ← hpow]
      exact hlt
    simp only []
    split
    · rw [hpow]
      exact Nat.mul_le_mul_right _ hq
    · rw [hpow]
      exact Nat.mul_le_mul_right _ (le_of_lt hq)

/-- The sign of a finite rounded result is the sign of the exact result. -/
theorem roundUnits_finite_sign (z u : Int) (h : roundUnits z = F64.finite u) :
    (0 < u ↔ 0 < z) ∧ (u < 0 ↔ z < 0) := by
  unfold roundUnits at h
  split at h
  · split at h <;> exact F64.noConfusion h
  · have hu := F64.finite.inj h
    by_cases hz : z < 0
    · rw [if_pos hz] at hu
      have hp : 0 < roundNat53 z.natAbs := roundNat53_pos _ (by omega)
      omega
    · rw [if_neg hz] at hu
      by_cases hz0 : z = 0
      · subst hz0
        rw [Int.natAbs_zero, roundNat53_zero] at hu
        omega
      · have hp : 0 < roundNat53 z.natAbs := roundNat53_pos _ (by omega)
        omega

/-- An exact result below `2^62` in magnitude rounds to a finite value below `2^63`. -/
theorem roundUnits_bounded (z : Int) (hz : |z| < 4611686018427387904 * f64Scale) :
    ∃ u, roundUnits z = F64.finite u ∧ |u| < 9223372036854775808 * f64Scale := by
  have hs := f64Scale_pos
  have hscale : (4611686018427387904 : Int) * f64Scale = ((2 ^ 1136 : Nat) : Int) := by
    unfold f64Scale
    have h1 : (4611686018427387904 : Int) = ((2 ^ 62 : Nat) : Int) := by norm_num
    rw [h1, ← Nat.cast_mul, ← pow_add]
  have hscale2 : (9223372036854775808 : Int) * f64Scale = ((2 ^ 1137 : Nat) : Int) := by
    unfold f64Scale
    have h1 : (9223372036854775808 : Int) = ((2 ^ 63 : Nat) : Int) := by norm_num
    rw [h1, ← Nat.cast_mul, ← pow_add]
  have hnat : z.natAbs < 2 ^ 1136 := by
    have h2 : ((z.natAbs : Nat) : Int) < ((2 ^ 1136 : Nat) : Int) := by
      rw [Int.natCast_natAbs, ← hscale]
      exact hz
    exact_mod_cast h2
  have hsize : z.natAbs.size ≤ 1136 := Nat.size_le.mpr hnat
  have hup : roundNat53 z.natAbs ≤ 2 ^ 1136 :=
    le_trans (roundNat53_upper _) (Nat.pow_le_pow_right (by decide) hsize)
  have h1137 : (2 : Nat) ^ 1136 < 2 ^ 1137 := Nat.pow_lt_pow_right (by decide) (by decide)
  have h2098 : (2 : Nat) ^ 1137 < 2 ^ 2098 := Nat.pow_lt_pow_right (by decide) (by decide)
  have hfin : ¬ (roundNat53 z.natAbs ≥ 2 ^ 2098) := by omega
  refine ⟨if z < 0 then -(roundNat53 z.natAbs : Int) else (roundNat53 z.natAbs : Int), ?_, ?_⟩
  · unfold roundUnits
    rw [if_neg hfin]
  · rw [hscale2]
    have hc : ((roundNat53 z.natAbs : Nat) : Int) < ((2 ^ 1137 : Nat) : Int) := by
      exact_mod_cast lt_of_le_of_lt hup h1137
    split
    · rw [abs_neg, abs_of_nonneg (Int.ofNat_nonneg _)]
      exact hc
    · rw [abs_of_nonneg (Int.ofNat_nonneg _)]
      exact hc

theorem f64Sub_finite_inv (x : F64) (p u : Int)
    (h : f64Sub x (f64OfInt p) = F64.finite u) :
    ∃ a, x = F64.finite a ∧ roundUnits (a - p * f64Scale) = F64.finite u := by
  cases x with
  | finite a => exact ⟨a, rfl, h⟩
  | posInf => exact F64.noConfusion h
  | negInf => exact F64.noConfusion h
  | nan => exact F64.noConfusion h

theorem f64Lt_zero_finite (u : Int) :
    f64Lt (f64OfInt 0) (F64.finite u) = decide (0 < u) := by
  simp [f64Lt, f64OfInt]

theorem f64Lt_finite_zero (u : Int) :
    f64Lt (F64.finite u) (f64OfInt 0) = decide (u < 0) := by
  simp [f64Lt, f64OfInt]

theorem f64Ne_finite (a : Int) (p : Int) :
    f64Ne (F64.finite a) (f64OfInt p) = decide (a ≠ p * f64Scale) := by
  simp [f64Ne, f64OfInt]

theorem f64Ne_self_ofInt (p : Int) : f64Ne (f64OfInt p) (f64OfInt p) = false := by
  simp [f64Ne, f64OfInt]

/-- A finite non-zero displacement means the guard `X != proX` holds. -/
theorem f64Ne_of_sub_ne_zero (x : F64) (p u : Int)
    (h : f64Sub x (f64OfInt p) = F64.finite u) (hu : u ≠ 0) :
    f64Ne x (f64OfInt p) = true := by
  obtain ⟨a, hx, hr⟩ := f64Sub_finite_inv x p u h
  have hsign := roundUnits_finite_sign _ _ hr
  subst hx
  rw [f64Ne_finite]
  simp only [decide_eq_true_eq]
  intro ha
  omega

/-- A zero displacement means the position is the reference position. -/
theorem eq_of_sub_eq_zero (x : F64) (p : Int)
    (h : f64Sub x (f64OfInt p) = f64OfInt 0) : x = f64OfInt p := by
  rw [f64OfInt_zero] at h
  obtain ⟨a, hx, hr⟩ := f64Sub_finite_inv x p 0 h
  have hz := roundUnits_eq_zero _ hr
  have ha : a = p * f64Scale := by omega
  rw [hx, ha]
  rfl

/-! ## UpdateLoop: input resolution -/

theorem indexAt_last (ks : List Key) (k : Key) :
    indexAt (ks ++ [k]) ((ks ++ [k]).length - 1) = some k := by
  simp [indexAt]

theorem wrap64_neg_one : wrap64 (-1) = -1 := by
  unfold wrap64
  omega

set_option maxRecDepth 8000 in
/-- Closed form of `collectUserInput`. -/
theorem collectUserInput_eq (g : Game) (w h : Int) :
    collectUserInput g w h
      = some { g with protaganistPosition :=
          { X := goFloat (wrap64 (goInt g.protaganistPosition.X
              + (match g.keys.getLast? with
                 | some Key.KeyLeft => -1
                 | some Key.KeyRight => 1
                 | _ => 0))),
            Y := goFloat (wrap64 (goInt g.protaganistPosition.Y
              + (match g.keys.getLast? with
                 | some Key.KeyUp => -1
                 | some Key.KeyDown => 1
                 | _ => 0))) } } := by
  rcases List.eq_nil_or_concat g.keys with hk | ⟨front, k, hk⟩
  · simp [collectUserInput, modifyProtaganistX, modifyProtagainstY, applyBoundries, hk]
  · have hlast := indexAt_last front k
    cases k <;>
      simp [collectUserInput, modifyProtaganistX, modifyProtagainstY, applyBoundries, hk,
        indexAt, wrap64_neg_one] at hlast ⊢

/-- The coordinate stored for the truncated value `t` and the step `s`, when `t` is below
`2^53` in magnitude and `s` is one of `-1`, `0`, `1`. -/
theorem storedCoordinate_exact (t s : Int) (ht : |t| < 9007199254740992)
    (hs : s = -1 ∨ s = 0 ∨ s = 1) :
    goFloat (wrap64 (t + s)) = f64OfInt (t + s) := by
  have h1 := abs_lt.mp ht
  have hw : wrap64 (t + s) = t + s := by
    apply wrap64_of_range <;> rcases hs with h | h | h <;> omega
  rw [hw]
  apply goFloat_exact
  have h2 : (2 : Nat) ^ 53 = 9007199254740992 := by norm_num
  rw [h2]
  rcases hs with h | h | h <;> omega

theorem f64OfInt_injective (a b : Int) (h : f64OfInt a = f64OfInt b) : a = b := by
  have h2 := F64.finite.inj h
  exact Int.eq_of_mul_eq_mul_right (ne_of_gt f64Scale_pos) h2

/-- C7, as stated, fails: at the integer-valued position `(2^53, 0)` with the Right key
pressed, `collectUserInput` leaves `X` at `2^53`, because `float64(2^53 + 1)` rounds back to
`2^53`; the claim says `X` becomes `2^53 + 1`. -/
theorem collectUserInput_last_key_counterexample :
    (collectUserInput
        { loadGame with
          protaganistPosition := ⟨f64OfInt 9007199254740992, f64OfInt 0⟩,
          keys := [Key.KeyRight] } screenWidth screenHeight).map
        (fun g => g.protaganistPosition)
      = some ⟨f64OfInt 9007199254740992, f64OfInt 0⟩ ∧
    (⟨f64OfInt 9007199254740992, f64OfInt 0⟩ : Position)
      ≠ ⟨f64OfInt (9007199254740992 + 1), f64OfInt 0⟩ := by
  constructor
  · rw [collectUserInput_eq]
    have hx : goInt (f64OfInt 9007199254740992) = 9007199254740992 :=
      goInt_ofInt _ (by decide) (by decide)
    have hy : goInt (f64OfInt 0) = 0 := goInt_ofInt _ (by decide) (by decide)
    have hwx : wrap64 (9007199254740992 + 1) = 9007199254740993 := by
      unfold wrap64; omega
    have hwy : wrap64 (0 + 0) = 0 := by
      unfold wrap64; omega
    have hfy : goFloat 0 = f64OfInt 0 := goFloat_exact 0 (by simp)
    simp only [Option.map_some', List.getLast?_singleton, hx, hy, hwx, hwy, goFloat_tie, hfy]
  · intro h
    have hX := congrArg Position.X h
    have := f64OfInt_injective _ _ hX
    omega

/-- C7, amended: for every game state with an integer-valued player position `(x, y)`
with `|x| < 2^53` and `|y| < 2^53` and every pressed-key list `ks`, `collectUserInput`
moves the player by the step of the last key of `ks` only: `(x-1, y)` for Left, `(x+1, y)`
for Right, `(x, y-1)` for Up, `(x, y+1)` for Down, `(x, y)` for an empty list or any other
last key, and changes no other field; the keys before the last never matter; with keys
`[Up, Left]` only `X` decreases by 1; and at most one coordinate changes. -/
theorem collectUserInput_last_key (g : Game) (x y : Int) (ks : List Key) (w h : Int)
    (hx : |x| < 9007199254740992) (hy : |y| < 9007199254740992) :
    (collectUserInput
        { g with protaganistPosition := ⟨f64OfInt x, f64OfInt y⟩, keys := ks } w h
      = some { g with
          keys := ks,
          protaganistPosition :=
            match ks.getLast? with
            | some Key.KeyLeft => ⟨f64OfInt (x - 1), f64OfInt y⟩
            | some Key.KeyRight => ⟨f64OfInt (x + 1), f64OfInt y⟩
            | some Key.KeyUp => ⟨f64OfInt x, f64OfInt (y - 1)⟩
            | some Key.KeyDown => ⟨f64OfInt x, f64OfInt (y + 1)⟩
            | _ => ⟨f64OfInt x, f64OfInt y⟩ }) ∧
    (∀ (earlier : List Key) (k : Key),
      (collectUserInput
          { g with protaganistPosition := ⟨f64OfInt x, f64OfInt y⟩,
                   keys := earlier ++ [k] } w h).map
          (fun g1 => g1.protaganistPosition)
        = (collectUserInput
            { g with protaganistPosition := ⟨f64OfInt x, f64OfInt y⟩, keys := [k] } w h).map
            (fun g1 => g1.protaganistPosition)) ∧
    ((collectUserInput
        { g with protaganistPosition := ⟨f64OfInt x, f64OfInt y⟩,
                 keys := [Key.KeyUp, Key.KeyLeft] } w h).map
        (fun g1 => g1.protaganistPosition) = some ⟨f64OfInt (x - 1), f64OfInt y⟩) ∧
    (∀ g1, collectUserInput
        { g with protaganistPosition := ⟨f64OfInt x, f64OfInt y⟩, keys := ks } w h = some g1 →
      g1.protaganistPosition.X = f64OfInt x ∨ g1.protaganistPosition.Y = f64OfInt y) := by
  have hx2 := abs_lt.mp hx
  have hy2 := abs_lt.mp hy
  have hgx : goInt (f64OfInt x) = x := goInt_ofInt x (by omega) (by omega)
  have hgy : goInt (f64OfInt y) = y := goInt_ofInt y (by omega) (by omega)
  have hsx : ∀ s : Int, s = -1 ∨ s = 0 ∨ s = 1 → goFloat (wrap64 (x + s)) = f64OfInt (x + s) :=
    fun s hs => storedCoordinate_exact x s hx hs
  have hsy : ∀ s : Int, s = -1 ∨ s = 0 ∨ s = 1 → goFloat (wrap64 (y + s)) = f64OfInt (y + s) :=
    fun s hs => storedCoordinate_exact y s hy hs
  have h0x := hsx 0 (by simp)
  have h0y := hsy 0 (by simp)
  have h1x := hsx 1 (by simp)
  have h1y := hsy 1 (by simp)
  have hmx := hsx (-1) (by simp)
  have hmy := hsy (-1) (by simp)
  simp only [add_zero, ← sub_eq_add_neg] at h0x h0y hmx hmy
  have hmain : ∀ ks : List Key,
      collectUserInput
        { g with protaganistPosition := ⟨f64OfInt x, f64OfInt y⟩, keys := ks } w h
      = some { g with
          keys := ks,
          protaganistPosition :=
            match ks.getLast? with
            | some Key.KeyLeft => ⟨f64OfInt (x - 1), f64OfInt y⟩
            | some Key.KeyRight => ⟨f64OfInt (x + 1), f64OfInt y⟩
            | some Key.KeyUp => ⟨f64OfInt x, f64OfInt (y - 1)⟩
            | some Key.KeyDown => ⟨f64OfInt x, f64OfInt (y + 1)⟩
            | _ => ⟨f64OfInt x, f64OfInt y⟩ } := by
    intro ks
    rw [collectUserInput_eq]
    simp only [hgx, hgy]
    rcases List.eq_nil_or_concat ks with rfl | ⟨front, k, rfl⟩
    · simp [h0x, h0y]
    · cases k <;>
        simp [h0x, h0y, h1x, h1y, hmx, hmy, ← sub_eq_add_neg]
  refine ⟨hmain ks, ?_, ?_, ?_⟩
  · intro earlier k
    rw [hmain, hmain]
    simp
  · rw [hmain]
    rfl
  · intro g1 hg1
    rw [hmain] at hg1
    have hg := (Option.some.inj hg1).symm
    subst hg
    rcases List.eq_nil_or_concat ks with rfl | ⟨front, k, rfl⟩
    · left; rfl
    · cases k <;> simp

theorem collectUserInput_last_key_witness :
    |(120 : Int)| < 9007199254740992 ∧ |(120 : Int)| < 9007199254740992 ∧
    (collectUserInput
        { loadGame with protaganistPosition := ⟨f64OfInt 120, f64OfInt 120⟩,
                        keys := [Key.KeyUp, Key.KeyLeft] } 240 240).map
        (fun g1 => g1.protaganistPosition) = some ⟨f64OfInt (120 - 1), f64OfInt 120⟩ :=
  ⟨by decide, by decide,
    (collectUserInput_last_key loadGame 120 120 [Key.KeyUp, Key.KeyLeft] 240 240
      (by decide) (by decide)).2.2.1⟩

/-! ## UpdateLoop: truncation of the position -/

/-- The horizontal step is skipped when `X` equals `proX`. -/
theorem horizontalStep_of_eq (g : Game) (newLayers : List (List (List Int)))
    (hx : g.protaganistPosition.X = f64OfInt proX) :
    horizontalStep g newLayers = some newLayers := by
  unfold horizontalStep
  rw [hx, f64Ne_self_ofInt]
  rfl

/-- The initial position is left where it is by `collectUserInput` with no key pressed. -/
theorem collectUserInput_loadGame :
    collectUserInput loadGame screenWidth screenHeight = some loadGame := by
  have hg : goInt (f64OfInt 120) = 120 := goInt_ofInt _ (by decide) (by decide)
  have hs : goFloat (wrap64 (120 + 0)) = f64OfInt (120 + 0) :=
    storedCoordinate_exact 120 0 (by decide) (by simp)
  have hc := collectUserInput_eq loadGame screenWidth screenHeight
  have hk : loadGame.keys.getLast? = none := rfl
  have hX : loadGame.protaganistPosition.X = f64OfInt 120 := rfl
  have hY : loadGame.protaganistPosition.Y = f64OfInt 120 := rfl
  rw [hk, hX, hY, hg] at hc
  simp only [hs] at hc
  rw [hc]
  rfl

/-- C8, as stated, fails: in the initial state of `loadGame` the horizontal displacement
is exactly zero (and stays so after `collectUserInput` with no key pressed), the duplicated
world layers are the world layers, and the horizontal step of `drawBackgroundLayers`
returns them unchanged, so not every cell is `0` (the first cell is still 243). -/
theorem horizontalStep_zero_displacement_counterexample :
    f64Sub loadGame.protaganistPosition.X (f64OfInt proX) = f64OfInt 0 ∧
    (collectUserInput loadGame screenWidth screenHeight).map
      (fun g => g.protaganistPosition) = some loadGame.protaganistPosition ∧
    DuplicateLayers loadGame.layers = some loadGameLayers ∧
    ¬ (∃ out, horizontalStep loadGame loadGameLayers = some out ∧
        ∀ layer ∈ out, ∀ line ∈ layer, ∀ cell ∈ line, cell = 0) := by
  refine ⟨f64Sub_ofInt 120 120 (by decide), ?_, by decide, ?_⟩
  · rw [collectUserInput_loadGame]
    rfl
  · rintro ⟨out, hout, hzero⟩
    have hval : horizontalStep loadGame loadGameLayers = some loadGameLayers :=
      horizontalStep_of_eq loadGame loadGameLayers rfl
    rw [hval] at hout
    have ho : out = loadGameLayers := (Option.some.inj hout).symm
    subst ho
    have hnot : ¬ (∀ layer ∈ loadGameLayers, ∀ line ∈ layer, ∀ cell ∈ line, cell = 0) := by
      decide
    exact hnot hzero

/-- C8, amended: for every game state whose horizontal displacement
`playerPosition.X - proX` is exactly zero, the horizontal step of `drawBackgroundLayers`
leaves every cell of every layer of the copy unchanged (the guard `X != proX` skips it). -/
theorem horizontalStep_zero_displacement (g : Game) (newLayers : List (List (List Int)))
    (hd : f64Sub g.protaganistPosition.X (f64OfInt proX) = f64OfInt 0) :
    horizontalStep g newLayers = some newLayers :=
  horizontalStep_of_eq g newLayers (eq_of_sub_eq_zero _ _ hd)

theorem horizontalStep_zero_displacement_witness :
    f64Sub loadGame.protaganistPosition.X (f64OfInt proX) = f64OfInt 0 ∧
    horizontalStep loadGame loadGameLayers = some loadGameLayers :=
  ⟨f64Sub_ofInt 120 120 (by decide),
    horizontalStep_zero_displacement loadGame loadGameLayers
      (f64Sub_ofInt 120 120 (by decide))⟩

/-! ## RenderLoop: list lemmas for the shift loops -/

theorem foldlM_range_invariant {σ : Type} (step : σ → Nat → Option σ) (P : Nat → σ → Prop)
    (n : Nat) (s0 : σ) (h0 : P 0 s0)
    (hstep : ∀ i s, i < n → P i s → ∃ s1, step s i = some s1 ∧ P (i + 1) s1) :
    ∃ s, (List.range n).foldlM step s0 = some s ∧ P n s := by
  induction n with
  | zero => exact ⟨s0, by simp, h0⟩
  | succ n ih =>
    obtain ⟨s, hs, hP⟩ := ih (fun i s hi => hstep i s (by omega))
    obtain ⟨s1, hs1, hP1⟩ := hstep n s (by omega) hP
    refine ⟨s1, ?_, hP1⟩
    rw [List.range_succ, List.foldlM_append, hs]
    simp [hs1]

theorem getElem?_mapFirst {α : Type} (f : α → α) (l : List α) (j k : Nat) :
    ((l.take j).map f ++ l.drop j)[k]? = if k < j then (l[k]?).map f else l[k]? := by
  induction l generalizing j k with
  | nil => simp
  | cons x xs ih =>
    cases j with
    | zero => simp
    | succ j =>
      cases k with
      | zero => simp
      | succ k => simpa using ih j k

theorem mapFirst_set {α : Type} (f : α → α) (l : List α) (j : Nat) (hj : j < l.length) :
    ((l.take j).map f ++ l.drop j).set j (f l[j])
      = (l.take (j + 1)).map f ++ l.drop (j + 1) := by
  induction l generalizing j with
  | nil => simp at hj
  | cons x xs ih =>
    cases j with
    | zero => simp
    | succ j =>
      have hj2 : j < xs.length := by simpa using hj
      simpa using ih j hj2

theorem set_eq_self {α : Type} (l : List α) (i : Nat) (x : α) (h : l[i]? = some x) :
    l.set i x = l := by
  induction l generalizing i with
  | nil => simp
  | cons y ys ih =>
    cases i with
    | zero =>
      simp only [List.getElem?_cons_zero, Option.some.injEq] at h
      simp [h]
    | succ i =>
      simp only [List.getElem?_cons_succ] at h
      simp [ih i h]

theorem storeRow_eq (u : List (List (List Int))) (ln li : Nat) (cur : List (List Int))
    (row : List Int) (hu : u[ln]? = some cur) (hli : li < cur.length) :
    storeRow u ln li row = some (u.set ln (cur.set li row)) := by
  have hln : ln < u.length := by
    by_contra hc
    rw [List.getElem?_eq_none_iff.mpr (by omega)] at hu
    exact Option.noConfusion hu
  simp [storeRow, indexAt, hu, storeAt, hli, hln]

/-! ## RenderLoop: the horizontal step at non-zero displacement -/

theorem pixelLoop_eq (difference : F64) (f : List Int → List Int)
    (hop : ∀ (line : List Int) (u : List (List (List Int))) (ln li p : Nat),
      shiftPixel difference ln li line u p = storeRow u ln li (f line))
    (hlen : ∀ line, (f line).length = line.length)
    (t : List (List (List Int))) (ln li : Nat) (cur : List (List Int)) (line : List Int)
    (ht : t[ln]? = some cur) (hcur : cur[li]? = some line) :
    (List.range line.length).foldlM (shiftPixel difference ln li line) t
      = some (t.set ln (cur.set li (f line))) := by
  have hli : li < cur.length := by
    by_contra hc
    rw [List.getElem?_eq_none_iff.mpr (by omega)] at hcur
    exact Option.noConfusion hcur
  have hln : ln < t.length := by
    by_contra hc
    rw [List.getElem?_eq_none_iff.mpr (by omega)] at ht
    exact Option.noConfusion ht
  obtain ⟨u, hu, hP⟩ := foldlM_range_invariant (shiftPixel difference ln li line)
    (fun p u => u = if p = 0 then t else t.set ln (cur.set li (f line)))
    line.length t (by simp)
    (by
      intro p u _ hPu
      refine ⟨t.set ln (cur.set li (f line)), ?_, by simp⟩
      rw [hop]
      by_cases hp : p = 0
      · rw [hPu, if_pos hp]
        exact storeRow_eq t ln li cur (f line) ht hli
      · rw [hPu, if_neg hp]
        have h1 : (t.set ln (cur.set li (f line)))[ln]? = some (cur.set li (f line)) := by
          simp [hln]
        rw [storeRow_eq _ ln li _ (f line) h1 (by simpa using hli)]
        simp)
  rw [hu, hP]
  by_cases h0 : line.length = 0
  · have hline : line = [] := List.length_eq_zero.mp h0
    have hf : f line = [] := List.length_eq_zero.mp (by rw [hlen, h0])
    rw [if_pos h0, hf, ← hline, set_eq_self cur li line hcur, set_eq_self t ln cur ht]
  · rw [if_neg h0]

theorem shiftLine_eq (difference : F64) (f : List Int → List Int)
    (hop : ∀ (line : List Int) (u : List (List (List Int))) (ln li p : Nat),
      shiftPixel difference ln li line u p = storeRow u ln li (f line))
    (hlen : ∀ line, (f line).length = line.length)
    (t : List (List (List Int))) (ln li : Nat) (cur : List (List Int)) (line : List Int)
    (ht : t[ln]? = some cur) (hcur : cur[li]? = some line) :
    shiftLine difference ln t li = some (t.set ln (cur.set li (f line))) := by
  simp only [shiftLine, indexAt, ht, hcur, Option.some_bind, Option.bind_eq_bind]
  exact pixelLoop_eq difference f hop hlen t ln li cur line ht hcur

theorem shiftLayerLines_eq (difference : F64) (f : List Int → List Int)
    (hop : ∀ (line : List Int) (u : List (List (List Int))) (ln li p : Nat),
      shiftPixel difference ln li line u p = storeRow u ln li (f line))
    (hlen : ∀ line, (f line).length = line.length)
    (s : List (List (List Int))) (ln : Nat) (layer : List (List Int))
    (hs : s[ln]? = some layer) :
    shiftLayerLines difference s ln = some (s.set ln (layer.map f)) := by
  have hln : ln < s.length := by
    by_contra hc
    rw [List.getElem?_eq_none_iff.mpr (by omega)] at hs
    exact Option.noConfusion hs
  simp only [shiftLayerLines, indexAt, hs, Option.some_bind, Option.bind_eq_bind]
  obtain ⟨u, hu, hP⟩ := foldlM_range_invariant (shiftLine difference ln)
    (fun j t => t = s.set ln ((layer.take j).map f ++ layer.drop j))
    layer.length s (by simp [set_eq_self s ln layer hs])
    (by
      intro j t hj hPt
      have ht : t[ln]? = some ((layer.take j).map f ++ layer.drop j) := by
        rw [hPt]; simp [hln]
      have hcur : ((layer.take j).map f ++ layer.drop j)[j]? = some layer[j] := by
        rw [getElem?_mapFirst, if_neg (by omega), List.getElem?_eq_getElem hj]
      refine ⟨_, shiftLine_eq difference f hop hlen t ln j _ _ ht hcur, ?_⟩
      rw [mapFirst_set f layer j hj, hPt]
      simp)
  rw [hu, hP]
  simp

theorem horizontalLoop_eq (difference : F64) (f : List Int → List Int)
    (hop : ∀ (line : List Int) (u : List (List (List Int))) (ln li p : Nat),
      shiftPixel difference ln li line u p = storeRow u ln li (f line))
    (hlen : ∀ line, (f line).length = line.length)
    (newLayers : List (List (List Int))) :
    (List.range newLayers.length).foldlM (shiftLayerLines difference) newLayers
      = some (newLayers.map (List.map f)) := by
  obtain ⟨u, hu, hP⟩ := foldlM_range_invariant (shiftLayerLines difference)
    (fun i s => s = (newLayers.take i).map (List.map f) ++ newLayers.drop i)
    newLayers.length newLayers (by simp)
    (by
      intro i s hi hPs
      have hs : s[i]? = some newLayers[i] := by
        rw [hPs, getElem?_mapFirst, if_neg (by omega), List.getElem?_eq_getElem hi]
      refine ⟨_, shiftLayerLines_eq difference f hop hlen s i _ hs, ?_⟩
      rw [hPs, mapFirst_set (List.map f) newLayers i hi])
  rw [hu, hP]
  simp

theorem shiftPixel_right (difference : F64) (hd : f64Lt (f64OfInt 0) difference = true)
    (n : Nat) (hn : goInt difference = (n : Int))
    (line : List Int) (u : List (List (List Int))) (ln li p : Nat) :
    shiftPixel difference ln li line u p
      = storeRow u ln li (line.drop n ++ List.replicate (min n line.length) 0) := by
  unfold shiftPixel
  rw [if_pos hd, hn, ShiftIntArrRight_eq]
  simp

theorem shiftPixel_left (difference : F64) (hnot : f64Lt (f64OfInt 0) difference = false)
    (hd : f64Lt difference (f64OfInt 0) = true) (n : Nat)
    (hn : goInt (f64Abs difference) = (n : Int))
    (line : List Int) (u : List (List (List Int))) (ln li p : Nat) :
    shiftPixel difference ln li line u p
      = storeRow u ln li (List.replicate (min n line.length) 0
          ++ line.take (line.length - n)) := by
  unfold shiftPixel
  rw [if_neg (by rw [hnot]; decide), if_pos hd, hn, ShiftIntArrLeft_eq]
  simp

theorem horizontalStep_right (g : Game) (newLayers : List (List (List Int))) (n : Nat)
    (hne : f64Ne g.protaganistPosition.X (f64OfInt proX) = true)
    (hpos : f64Lt (f64OfInt 0) (f64Sub g.protaganistPosition.X (f64OfInt proX)) = true)
    (hn : goInt (f64Sub g.protaganistPosition.X (f64OfInt proX)) = (n : Int)) :
    horizontalStep g newLayers
      = some (newLayers.map (List.map (fun line =>
          line.drop n ++ List.replicate (min n line.length) 0))) := by
  unfold horizontalStep
  rw [if_pos hne]
  exact horizontalLoop_eq _ _ (shiftPixel_right _ hpos n hn)
    (by intro line; simp only [List.length_append, List.length_replicate,
          List.length_drop]; omega) newLayers

theorem horizontalStep_left (g : Game) (newLayers : List (List (List Int))) (n : Nat)
    (hne : f64Ne g.protaganistPosition.X (f64OfInt proX) = true)
    (hnot : f64Lt (f64OfInt 0) (f64Sub g.protaganistPosition.X (f64OfInt proX)) = false)
    (hneg : f64Lt (f64Sub g.protaganistPosition.X (f64OfInt proX)) (f64OfInt 0) = true)
    (hn : goInt (f64Abs (f64Sub g.protaganistPosition.X (f64OfInt proX))) = (n : Int)) :
    horizontalStep g newLayers
      = some (newLayers.map (List.map (fun line =>
          List.replicate (min n line.length) 0 ++ line.take (line.length - n)))) := by
  unfold horizontalStep
  rw [if_pos hne]
  exact horizontalLoop_eq _ _ (shiftPixel_left _ hnot hneg n hn)
    (by intro line; simp only [List.length_append, List.length_replicate,
          List.length_take]; omega) newLayers

/-- The conversion `int(d)` of a finite non-negative `d` below `2^63` is a natural number. -/
theorem goInt_natCast_of_nonneg (u : Int) (hu0 : 0 ≤ u)
    (hu : |u| < 9223372036854775808 * f64Scale) :
    ∃ n : Nat, goInt (F64.finite u) = (n : Int) := by
  have h := goInt_finite_nonneg u hu0 hu
  exact ⟨(goInt (F64.finite u)).toNat, by omega⟩

/-- The horizontal step returns for every state with a finite displacement below `2^63`
in magnitude. -/
theorem horizontalStep_total_of_finite (g : Game) (newLayers : List (List (List Int)))
    (u : Int) (hd : f64Sub g.protaganistPosition.X (f64OfInt proX) = F64.finite u)
    (hu : |u| < 9223372036854775808 * f64Scale) :
    ∃ out, horizontalStep g newLayers = some out := by
  by_cases hu0 : u = 0
  · subst hu0
    rw [← f64OfInt_zero] at hd
    exact ⟨newLayers, horizontalStep_of_eq g newLayers (eq_of_sub_eq_zero _ _ hd)⟩
  · have hne := f64Ne_of_sub_ne_zero _ _ _ hd hu0
    rcases lt_or_gt_of_ne hu0 with hneg | hpos
    · have habs : |(|u|)| < 9223372036854775808 * f64Scale := by rw [abs_abs]; exact hu
      obtain ⟨n, hn⟩ := goInt_natCast_of_nonneg |u| (abs_nonneg u) habs
      exact ⟨_, horizontalStep_left g newLayers n hne
        (by rw [hd, f64Lt_zero_finite]; simp; omega)
        (by rw [hd, f64Lt_finite_zero]; simpa using hneg)
        (by rw [hd]; exact hn)⟩
    · obtain ⟨n, hn⟩ := goInt_natCast_of_nonneg u (le_of_lt hpos) hu
      exact ⟨_, horizontalStep_right g newLayers n hne
        (by rw [hd, f64Lt_zero_finite]; simpa using hpos)
        (by rw [hd]; exact hn)⟩

theorem f64Lt_zero_roundUnits (z : Int) (hz : 0 < z) :
    f64Lt (f64OfInt 0) (roundUnits z) = true := by
  have hp : 0 < roundNat53 z.natAbs := roundNat53_pos _ (by omega)
  unfold roundUnits
  split
  · rw [if_neg (by omega)]
    rfl
  · rw [if_neg (by omega), f64Lt_zero_finite]
    simp only [decide_eq_true_eq]
    omega

/-- With a positive displacement whose conversion is the smallest `int`, the loops of the
horizontal step panic on the stack `[[[1]]]`. -/
theorem horizontalLoop_negative_shift (d : F64) (hlt : f64Lt (f64OfInt 0) d = true)
    (hgi : goInt d = -9223372036854775808) :
    (List.range 1).foldlM (shiftLayerLines d) [[[1]]] = none := by
  simp [List.range_succ, shiftLayerLines, shiftLine, indexAt, shiftPixel, hlt, hgi,
    ShiftIntArrRight, makeInts]

/-- C15, as stated, fails. At `X = 10^19` the displacement is positive and at least `2^63`,
the conversion `int(d)` yields the smallest `int` (the value on amd64), a negative shift
amount is passed to `ShiftIntArrRight`, and the step panics in `make`. At `X = NaN` the
guard `X != proX` holds, the displacement is neither positive nor negative, and the rows
are filled with `0` instead of being shifted. -/
theorem horizontalStep_nonzero_counterexample :
    f64Lt (f64OfInt 0) (f64Sub (f64OfInt 10000000000000000000) (f64OfInt proX)) = true ∧
    goInt (f64Sub (f64OfInt 10000000000000000000) (f64OfInt proX)) = -9223372036854775808 ∧
    ShiftIntArrRight [1] (-9223372036854775808) = none ∧
    horizontalStep
        { loadGame with
          protaganistPosition := ⟨f64OfInt 10000000000000000000, f64OfInt 120⟩ } [[[1]]]
      = none ∧
    f64Ne F64.nan (f64OfInt proX) = true ∧
    f64Lt (f64OfInt 0) (f64Sub F64.nan (f64OfInt proX)) = false ∧
    f64Lt (f64Sub F64.nan (f64OfInt proX)) (f64OfInt 0) = false ∧
    horizontalStep { loadGame with protaganistPosition := ⟨F64.nan, f64OfInt 120⟩ } [[[1, 2]]]
      = some [[[0, 0]]] := by
  have hs := f64Scale_pos
  have hsub : f64Sub (f64OfInt 10000000000000000000) (f64OfInt proX)
      = roundUnits (10000000000000000000 * f64Scale - 120 * f64Scale) := rfl
  have hlt : f64Lt (f64OfInt 0) (f64Sub (f64OfInt 10000000000000000000) (f64OfInt proX))
      = true := by
    rw [hsub]
    exact f64Lt_zero_roundUnits _ (by omega)
  have hgi : goInt (f64Sub (f64OfInt 10000000000000000000) (f64OfInt proX))
      = -9223372036854775808 := by
    rw [hsub]
    exact goInt_roundUnits_large _ (by omega)
  have hne : f64Ne (f64OfInt 10000000000000000000) (f64OfInt proX) = true := by
    have h := f64Ne_finite (10000000000000000000 * f64Scale) 120
    have hd : decide (10000000000000000000 * f64Scale ≠ 120 * f64Scale) = true := by
      simp only [decide_eq_true_eq]
      omega
    rw [hd] at h
    exact h
  refine ⟨hlt, hgi, by decide, ?_, rfl, rfl, rfl, by decide⟩
  unfold horizontalStep
  rw [if_pos hne]
  exact horizontalLoop_negative_shift _ hlt hgi

/-- C15, amended: for every game state whose horizontal displacement
`d = playerPosition.X - proX` is finite, non-zero and below `2^63` in magnitude (`d` is
`u * 2^-1074` for the units `u`) and every layer stack, the horizontal step of
`drawBackgroundLayers` returns the stack in which every row `r` of every layer is replaced
by `ShiftIntArrRight(r, trunc(d))` when `d > 0` and by `ShiftIntArrLeft(r, trunc(|d|))`
when `d < 0`, each computed once from the original row (the loop over the cells does not
compound the shift); the shift amount is the truncation toward zero and is never
negative. -/
theorem horizontalStep_nonzero (g : Game) (newLayers : List (List (List Int))) (u : Int)
    (hd : f64Sub g.protaganistPosition.X (f64OfInt proX) = F64.finite u)
    (hu0 : u ≠ 0) (hu : |u| < 9223372036854775808 * f64Scale) :
    (0 < u ∧
      goInt (F64.finite u) = Int.tdiv u f64Scale ∧
      0 ≤ goInt (F64.finite u) ∧
      ∃ out, horizontalStep g newLayers = some out ∧
        out.map (fun layer => layer.map some)
          = newLayers.map (fun layer => layer.map (fun r =>
              ShiftIntArrRight r (goInt (F64.finite u))))) ∨
    (u < 0 ∧
      goInt (f64Abs (F64.finite u)) = Int.tdiv |u| f64Scale ∧
      0 ≤ goInt (f64Abs (F64.finite u)) ∧
      ∃ out, horizontalStep g newLayers = some out ∧
        out.map (fun layer => layer.map some)
          = newLayers.map (fun layer => layer.map (fun r =>
              ShiftIntArrLeft r (goInt (f64Abs (F64.finite u)))))) := by
  have hne := f64Ne_of_sub_ne_zero _ _ _ hd hu0
  rcases lt_or_gt_of_ne hu0 with hneg | hpos
  · right
    have habs : |(|u|)| < 9223372036854775808 * f64Scale := by rw [abs_abs]; exact hu
    obtain ⟨n, hn⟩ := goInt_natCast_of_nonneg |u| (abs_nonneg u) habs
    have hn2 : goInt (f64Abs (F64.finite u)) = (n : Int) := hn
    refine ⟨hneg, goInt_finite |u| habs, by omega, _,
      horizontalStep_left g newLayers n hne
        (by rw [hd, f64Lt_zero_finite]; simp; omega)
        (by rw [hd, f64Lt_finite_zero]; simpa using hneg)
        (by rw [hd]; exact hn), ?_⟩
    rw [hn2]
    simp [ShiftIntArrLeft_eq, Function.comp_def]
  · left
    obtain ⟨n, hn⟩ := goInt_natCast_of_nonneg u (le_of_lt hpos) hu
    refine ⟨hpos, goInt_finite u hu, by omega, _,
      horizontalStep_right g newLayers n hne
        (by rw [hd, f64Lt_zero_finite]; simpa using hpos)
        (by rw [hd]; exact hn), ?_⟩
    rw [hn]
    simp [ShiftIntArrRight_eq, Function.comp_def]

theorem horizontalStep_nonzero_witness :
    f64Sub ({ loadGame with protaganistPosition := ⟨f64OfInt 122, f64OfInt 120⟩ } :
        Game).protaganistPosition.X (f64OfInt proX) = F64.finite (2 * f64Scale) ∧
    2 * f64Scale ≠ 0 ∧
    |2 * f64Scale| < 9223372036854775808 * f64Scale ∧
    ((0 < 2 * f64Scale ∧
      goInt (F64.finite (2 * f64Scale)) = Int.tdiv (2 * f64Scale) f64Scale ∧
      0 ≤ goInt (F64.finite (2 * f64Scale)) ∧
      ∃ out, horizontalStep
            { loadGame with protaganistPosition := ⟨f64OfInt 122, f64OfInt 120⟩ }
            [[[1, 2, 3], [4, 5, 6]]] = some out ∧
        out.map (fun layer => layer.map some)
          = ([[[1, 2, 3], [4, 5, 6]]] : List (List (List Int))).map
              (fun layer => layer.map (fun r =>
                ShiftIntArrRight r (goInt (F64.finite (2 * f64Scale)))))) ∨
    (2 * f64Scale < 0 ∧
      goInt (f64Abs (F64.finite (2 * f64Scale))) = Int.tdiv |2 * f64Scale| f64Scale ∧
      0 ≤ goInt (f64Abs (F64.finite (2 * f64Scale))) ∧
      ∃ out, horizontalStep
            { loadGame with protaganistPosition := ⟨f64OfInt 122, f64OfInt 120⟩ }
            [[[1, 2, 3], [4, 5, 6]]] = some out ∧
        out.map (fun layer => layer.map some)
          = ([[[1, 2, 3], [4, 5, 6]]] : List (List (List Int))).map
              (fun layer => layer.map (fun r =>
                ShiftIntArrLeft r (goInt (f64Abs (F64.finite (2 * f64Scale)))))))) :=
  ⟨f64Sub_ofInt 122 120 (by decide),
    ne_of_gt (Int.mul_pos (by decide) f64Scale_pos),
    by
      rw [abs_of_pos (Int.mul_pos (by decide) f64Scale_pos)]
      exact Int.mul_lt_mul_of_pos_right (by decide) f64Scale_pos,
    horizontalStep_nonzero
      { loadGame with protaganistPosition := ⟨f64OfInt 122, f64OfInt 120⟩ }
      [[[1, 2, 3], [4, 5, 6]]] (2 * f64Scale)
      (f64Sub_ofInt 122 120 (by decide))
      (ne_of_gt (Int.mul_pos (by decide) f64Scale_pos))
      (by
        rw [abs_of_pos (Int.mul_pos (by decide) f64Scale_pos)]
        exact Int.mul_lt_mul_of_pos_right (by decide) f64Scale_pos)⟩

/-! ## RenderLoop: the vertical step -/

theorem ShiftLayerUp_total (G : List (List Int)) (n : Nat) :
    ∃ S, ShiftLayerUp G (n : Int) = some S := by
  cases G with
  | nil => exact ⟨[], by simp [ShiftLayerUp]⟩
  | cons row0 rest => exact ⟨_, ShiftLayerUp_eq (row0 :: rest) n (List.cons_ne_nil _ _)⟩

theorem ShiftLayerDown_total (G : List (List Int)) (n : Nat) :
    ∃ S, ShiftLayerDown G (n : Int) = some S := by
  cases G with
  | nil => exact ⟨[], by simp [ShiftLayerDown]⟩
  | cons row0 rest => exact ⟨_, ShiftLayerDown_eq (row0 :: rest) n (List.cons_ne_nil _ _)⟩

theorem verticalLoop_eq (difference : F64) (F : List (List Int) → List (List Int))
    (hop : ∀ (u : List (List (List Int))) (i : Nat) (layer : List (List Int)),
      u[i]? = some layer → shiftLayerVertical difference u i = some (u.set i (F layer)))
    (newLayers : List (List (List Int))) :
    (List.range newLayers.length).foldlM (shiftLayerVertical difference) newLayers
      = some (newLayers.map F) := by
  obtain ⟨u, hu, hP⟩ := foldlM_range_invariant (shiftLayerVertical difference)
    (fun i s => s = (newLayers.take i).map F ++ newLayers.drop i)
    newLayers.length newLayers (by simp)
    (by
      intro i s hi hPs
      have hs : s[i]? = some newLayers[i] := by
        rw [hPs, getElem?_mapFirst, if_neg (by omega), List.getElem?_eq_getElem hi]
      refine ⟨_, hop s i _ hs, ?_⟩
      rw [hPs, mapFirst_set F newLayers i hi])
  rw [hu, hP]
  simp

theorem shiftLayerVertical_up (difference : F64)
    (hd : f64Lt (f64OfInt 0) difference = true) (n : Nat)
    (hn : goInt difference = (n : Int))
    (u : List (List (List Int))) (i : Nat) (layer : List (List Int))
    (hu : u[i]? = some layer) :
    shiftLayerVertical difference u i
      = some (u.set i ((ShiftLayerUp layer (n : Int)).getD [])) := by
  have hi : i < u.length := by
    by_contra hc
    rw [List.getElem?_eq_none_iff.mpr (by omega)] at hu
    exact Option.noConfusion hu
  obtain ⟨S, hS⟩ := ShiftLayerUp_total layer n
  simp [shiftLayerVertical, indexAt, hu, hd, hn, hS, storeAt, hi]

theorem shiftLayerVertical_down (difference : F64)
    (hnot : f64Lt (f64OfInt 0) difference = false)
    (hd : f64Lt difference (f64OfInt 0) = true) (n : Nat)
    (hn : goInt (f64Abs difference) = (n : Int))
    (u : List (List (List Int))) (i : Nat) (layer : List (List Int))
    (hu : u[i]? = some layer) :
    shiftLayerVertical difference u i
      = some (u.set i ((ShiftLayerDown layer (n : Int)).getD [])) := by
  have hi : i < u.length := by
    by_contra hc
    rw [List.getElem?_eq_none_iff.mpr (by omega)] at hu
    exact Option.noConfusion hu
  obtain ⟨S, hS⟩ := ShiftLayerDown_total layer n
  simp [shiftLayerVertical, indexAt, hu, hd, hnot, hn, hS, storeAt, hi]

/-- The vertical step is skipped when `Y` equals `proY`. -/
theorem verticalStep_of_eq (g : Game) (newLayers : List (List (List Int)))
    (hy : g.protaganistPosition.Y = f64OfInt proY) :
    verticalStep g newLayers = some newLayers := by
  unfold verticalStep
  rw [hy, f64Ne_self_ofInt]
  rfl

theorem verticalStep_up (g : Game) (newLayers : List (List (List Int))) (n : Nat)
    (hne : f64Ne g.protaganistPosition.Y (f64OfInt proY) = true)
    (hpos : f64Lt (f64OfInt 0) (f64Sub g.protaganistPosition.Y (f64OfInt proY)) = true)
    (hn : goInt (f64Sub g.protaganistPosition.Y (f64OfInt proY)) = (n : Int)) :
    verticalStep g newLayers
      = some (newLayers.map (fun G => (ShiftLayerUp G (n : Int)).getD [])) := by
  unfold verticalStep
  rw [if_pos hne]
  exact verticalLoop_eq _ _ (shiftLayerVertical_up _ hpos n hn) newLayers

theorem verticalStep_down (g : Game) (newLayers : List (List (List Int))) (n : Nat)
    (hne : f64Ne g.protaganistPosition.Y (f64OfInt proY) = true)
    (hnot : f64Lt (f64OfInt 0) (f64Sub g.protaganistPosition.Y (f64OfInt proY)) = false)
    (hneg : f64Lt (f64Sub g.protaganistPosition.Y (f64OfInt proY)) (f64OfInt 0) = true)
    (hn : goInt (f64Abs (f64Sub g.protaganistPosition.Y (f64OfInt proY))) = (n : Int)) :
    verticalStep g newLayers
      = some (newLayers.map (fun G => (ShiftLayerDown G (n : Int)).getD [])) := by
  unfold verticalStep
  rw [if_pos hne]
  exact verticalLoop_eq _ _ (shiftLayerVertical_down _ hnot hneg n hn) newLayers

/-- The vertical step returns for every state with a finite displacement below `2^63` in
magnitude. -/
theorem verticalStep_total_of_finite (g : Game) (newLayers : List (List (List Int)))
    (u : Int) (hd : f64Sub g.protaganistPosition.Y (f64OfInt proY) = F64.finite u)
    (hu : |u| < 9223372036854775808 * f64Scale) :
    ∃ out, verticalStep g newLayers = some out := by
  by_cases hu0 : u = 0
  · subst hu0
    rw [← f64OfInt_zero] at hd
    exact ⟨newLayers, verticalStep_of_eq g newLayers (eq_of_sub_eq_zero _ _ hd)⟩
  · have hne := f64Ne_of_sub_ne_zero _ _ _ hd hu0
    rcases lt_or_gt_of_ne hu0 with hneg | hpos
    · have habs : |(|u|)| < 9223372036854775808 * f64Scale := by rw [abs_abs]; exact hu
      obtain ⟨n, hn⟩ := goInt_natCast_of_nonneg |u| (abs_nonneg u) habs
      exact ⟨_, verticalStep_down g newLayers n hne
        (by rw [hd, f64Lt_zero_finite]; simp; omega)
        (by rw [hd, f64Lt_finite_zero]; simpa using hneg)
        (by rw [hd]; exact hn)⟩
    · obtain ⟨n, hn⟩ := goInt_natCast_of_nonneg u (le_of_lt hpos) hu
      exact ⟨_, verticalStep_up g newLayers n hne
        (by rw [hd, f64Lt_zero_finite]; simpa using hpos)
        (by rw [hd]; exact hn)⟩

/-- The displacement of a finite coordinate below `2^61` in magnitude from `proX` or
`proY` is finite and below `2^63` in magnitude. -/
theorem displacement_finite (a : Int) (p : Int) (hp : p = 120)
    (ha : |a| < 2305843009213693952 * f64Scale) :
    ∃ u, f64Sub (F64.finite a) (f64OfInt p) = F64.finite u
      ∧ |u| < 9223372036854775808 * f64Scale := by
  have hs := f64Scale_pos
  subst hp
  have h := abs_lt.mp ha
  have hz : |a - 120 * f64Scale| < 4611686018427387904 * f64Scale := by
    rw [abs_lt]
    constructor <;> omega
  exact roundUnits_bounded _ hz

/-- The draws of `drawBackgroundLayers` are issued (no panic) for every state whose
position is finite and below `2^61` in magnitude. -/
theorem drawBackgroundLayers_total_of_finite (g : Game) (newLayers : List (List (List Int)))
    (a b : Int) (hpos : g.protaganistPosition = ⟨F64.finite a, F64.finite b⟩)
    (ha : |a| < 2305843009213693952 * f64Scale)
    (hb : |b| < 2305843009213693952 * f64Scale) :
    ∃ ops, drawBackgroundLayers g newLayers = some ops := by
  have hX : g.protaganistPosition.X = F64.finite a := by rw [hpos]
  have hY : g.protaganistPosition.Y = F64.finite b := by rw [hpos]
  obtain ⟨u, hu, hub⟩ := displacement_finite a proX rfl ha
  obtain ⟨v, hv, hvb⟩ := displacement_finite b proY rfl hb
  rw [← hX] at hu
  rw [← hY] at hv
  obtain ⟨h, hh⟩ := horizontalStep_total_of_finite g newLayers u hu hub
  obtain ⟨w, hw⟩ := verticalStep_total_of_finite g h v hv hvb
  exact ⟨drawLayers w, by simp [drawBackgroundLayers, hh, hw]⟩

/-- With a positive displacement whose conversion is the smallest `int`, the loop of the
vertical step panics on the stack `[[[1]]]`. -/
theorem verticalLoop_negative_shift (d : F64) (hlt : f64Lt (f64OfInt 0) d = true)
    (hgi : goInt d = -9223372036854775808) :
    (List.range 1).foldlM (shiftLayerVertical d) [[[1]]] = none := by
  simp [List.range_succ, shiftLayerVertical, indexAt, hlt, hgi, ShiftLayerUp, sliceFrom]

/-- C16, as stated, fails: at `Y = 10^19` the displacement is positive and at least `2^63`,
the conversion `int(d)` yields the smallest `int` (the value on amd64), `ShiftLayerUp` is
called with this negative amount and panics at `layerToShift[spaceToShift:]`, so the step
does not return. -/
theorem verticalStep_cases_counterexample :
    f64Lt (f64OfInt 0) (f64Sub (f64OfInt 10000000000000000000) (f64OfInt proY)) = true ∧
    goInt (f64Sub (f64OfInt 10000000000000000000) (f64OfInt proY)) = -9223372036854775808 ∧
    ShiftLayerUp [[1]] (-9223372036854775808) = none ∧
    verticalStep
        { loadGame with
          protaganistPosition := ⟨f64OfInt 120, f64OfInt 10000000000000000000⟩ } [[[1]]]
      = none := by
  have hs := f64Scale_pos
  have hsub : f64Sub (f64OfInt 10000000000000000000) (f64OfInt proY)
      = roundUnits (10000000000000000000 * f64Scale - 120 * f64Scale) := rfl
  have hlt : f64Lt (f64OfInt 0) (f64Sub (f64OfInt 10000000000000000000) (f64OfInt proY))
      = true := by
    rw [hsub]
    exact f64Lt_zero_roundUnits _ (by omega)
  have hgi : goInt (f64Sub (f64OfInt 10000000000000000000) (f64OfInt proY))
      = -9223372036854775808 := by
    rw [hsub]
    exact goInt_roundUnits_large _ (by omega)
  have hne : f64Ne (f64OfInt 10000000000000000000) (f64OfInt proY) = true := by
    have h := f64Ne_finite (10000000000000000000 * f64Scale) 120
    have hd : decide (10000000000000000000 * f64Scale ≠ 120 * f64Scale) = true := by
      simp only [decide_eq_true_eq]
      omega
    rw [hd] at h
    exact h
  refine ⟨hlt, hgi, by decide, ?_⟩
  unfold verticalStep
  rw [if_pos hne]
  exact verticalLoop_negative_shift _ hlt hgi

/-- C16, amended: for every game state whose vertical displacement
`d = playerPosition.Y - proY` is finite and below `2^63` in magnitude (`d` is
`u * 2^-1074` for the units `u`) and every layer stack, the vertical step of
`drawBackgroundLayers` returns the stack in which every layer `G` is replaced by
`ShiftLayerUp(G, trunc(d))` when `d > 0` and by `ShiftLayerDown(G, trunc(|d|))` when
`d < 0` (the shift amount is the truncation toward zero and is not negative), and returns
the stack unchanged when `d = 0`. -/
theorem verticalStep_cases (g : Game) (newLayers : List (List (List Int))) (u : Int)
    (hd : f64Sub g.protaganistPosition.Y (f64OfInt proY) = F64.finite u)
    (hu : |u| < 9223372036854775808 * f64Scale) :
    (0 < u →
      goInt (F64.finite u) = Int.tdiv u f64Scale ∧
      0 ≤ goInt (F64.finite u) ∧
      ∃ out, verticalStep g newLayers = some out ∧
        out.map some = newLayers.map (fun G => ShiftLayerUp G (goInt (F64.finite u)))) ∧
    (u < 0 →
      goInt (f64Abs (F64.finite u)) = Int.tdiv |u| f64Scale ∧
      0 ≤ goInt (f64Abs (F64.finite u)) ∧
      ∃ out, verticalStep g newLayers = some out ∧
        out.map some
          = newLayers.map (fun G => ShiftLayerDown G (goInt (f64Abs (F64.finite u))))) ∧
    (u = 0 → verticalStep g newLayers = some newLayers) := by
  refine ⟨?_, ?_, ?_⟩
  · intro hpos
    have hne := f64Ne_of_sub_ne_zero _ _ _ hd (ne_of_gt hpos)
    obtain ⟨n, hn⟩ := goInt_natCast_of_nonneg u (le_of_lt hpos) hu
    refine ⟨goInt_finite u hu, by omega, _,
      verticalStep_up g newLayers n hne
        (by rw [hd, f64Lt_zero_finite]; simpa using hpos)
        (by rw [hd]; exact hn), ?_⟩
    rw [hn, List.map_map]
    apply List.map_congr_left
    intro G _
    obtain ⟨S, hS⟩ := ShiftLayerUp_total G n
    simp [hS]
  · intro hneg
    have hne := f64Ne_of_sub_ne_zero _ _ _ hd (ne_of_lt hneg)
    have habs : |(|u|)| < 9223372036854775808 * f64Scale := by rw [abs_abs]; exact hu
    obtain ⟨n, hn⟩ := goInt_natCast_of_nonneg |u| (abs_nonneg u) habs
    have hn2 : goInt (f64Abs (F64.finite u)) = (n : Int) := hn
    refine ⟨goInt_finite |u| habs, by omega, _,
      verticalStep_down g newLayers n hne
        (by rw [hd, f64Lt_zero_finite]; simp; omega)
        (by rw [hd, f64Lt_finite_zero]; simpa using hneg)
        (by rw [hd]; exact hn), ?_⟩
    rw [hn2, List.map_map]
    apply List.map_congr_left
    intro G _
    obtain ⟨S, hS⟩ := ShiftLayerDown_total G n
    simp [hS]
  · intro hzero
    subst hzero
    rw [← f64OfInt_zero] at hd
    exact verticalStep_of_eq g newLayers (eq_of_sub_eq_zero _ _ hd)

theorem verticalStep_cases_witness :
    f64Sub ({ loadGame with protaganistPosition := ⟨f64OfInt 120, f64OfInt 118⟩ } :
        Game).protaganistPosition.Y (f64OfInt proY) = F64.finite ((118 - 120) * f64Scale) ∧
    |((118 - 120) * f64Scale)| < 9223372036854775808 * f64Scale ∧
    (118 - 120) * f64Scale < 0 ∧
    goInt (f64Abs (F64.finite ((118 - 120) * f64Scale)))
      = Int.tdiv |((118 - 120) * f64Scale)| f64Scale ∧
    0 ≤ goInt (f64Abs (F64.finite ((118 - 120) * f64Scale))) ∧
    ∃ out, verticalStep
          { loadGame with protaganistPosition := ⟨f64OfInt 120, f64OfInt 118⟩ }
          [[[1, 2], [3, 4], [5, 6]]] = some out ∧
      out.map some
        = ([[[1, 2], [3, 4], [5, 6]]] : List (List (List Int))).map
            (fun G => ShiftLayerDown G (goInt (f64Abs (F64.finite ((118 - 120) * f64Scale))))) :=
  ⟨f64Sub_ofInt 118 120 (by decide),
    by
      have hs := f64Scale_pos
      rw [abs_lt]
      constructor <;> omega,
    by
      have hs := f64Scale_pos
      omega,
    (verticalStep_cases
      { loadGame with protaganistPosition := ⟨f64OfInt 120, f64OfInt 118⟩ }
      [[[1, 2], [3, 4], [5, 6]]] ((118 - 120) * f64Scale)
      (f64Sub_ofInt 118 120 (by decide))
      (by
        have hs := f64Scale_pos
        rw [abs_lt]
        constructor <;> omega)).2.1
      (by
        have hs := f64Scale_pos
        omega)⟩

/-! ## RenderLoop: tile positions -/

theorem foldl_append_flatten (sl : List (List Int)) (acc : List Int) :
    sl.foldl (fun l ml => l ++ ml) acc = acc ++ sl.flatten := by
  induction sl generalizing acc with
  | nil => simp
  | cons ml rest ih => simp [ih]

theorem flattenLayer_eq (sl : List (List Int)) : flattenLayer sl = sl.flatten := by
  simp [flattenLayer, foldl_append_flatten]

theorem drawTilesFrom_length (l : List Int) (i : Nat) :
    (drawTilesFrom i l).length = l.length := by
  induction l generalizing i with
  | nil => rfl
  | cons t rest ih => simp [drawTilesFrom, ih]

theorem drawTilesFrom_getElem? (l : List Int) (i k : Nat) (t : Int) (h : l[k]? = some t) :
    (drawTilesFrom i l)[k]?
      = some (DrawOp.tile
          (goFloat (wrap64 (Int.tmod ((i + k : Nat) : Int) xNum * tileSize)))
          (goFloat (wrap64 (Int.tdiv ((i + k : Nat) : Int) xNum * tileSize)))
          (Int.tmod t tileXNum * tileSize)
          (Int.tdiv t tileXNum * tileSize)) := by
  induction l generalizing i k with
  | nil => simp at h
  | cons t0 rest ih =>
    cases k with
    | zero =>
      simp only [List.getElem?_cons_zero, Option.some.injEq] at h
      subst h
      simp [drawTilesFrom]
    | succ k =>
      simp only [List.getElem?_cons_succ] at h
      have h2 := ih (i + 1) k h
      have h3 : i + 1 + k = i + (k + 1) := by omega
      rw [h3] at h2
      simpa [drawTilesFrom] using h2

theorem flatten_getElem?_rect (w : Nat) (sl : List (List Int))
    (h : ∀ row ∈ sl, row.length = w) (r c : Nat) (hc : c < w) :
    sl.flatten[w * r + c]? = sl[r]?.bind (fun row => row[c]?) := by
  induction sl generalizing r with
  | nil => simp
  | cons row rest ih =>
    have hrow : row.length = w := h row (List.mem_cons_self _ _)
    have hrest : ∀ x ∈ rest, x.length = w := fun x hx => h x (List.mem_cons_of_mem _ hx)
    cases r with
    | zero =>
      have h1 : c < row.length := by omega
      simp [List.getElem?_append_left h1]
    | succ r =>
      have h1 : row.length ≤ w * (r + 1) + c := by
        rw [hrow, Nat.mul_succ]; omega
      have h2 : w * (r + 1) + c - row.length = w * r + c := by
        rw [hrow, Nat.mul_succ]; omega
      rw [List.flatten_cons, List.getElem?_append_right h1, h2, ih hrest r]
      simp

/-- The translation of the `k`-th tile of a layer; for `k < 2^52` neither the `int`
arithmetic wraps nor the conversion to `float64` rounds. -/
theorem tilePosition_eq (k : Nat) (hk : k < 4503599627370496) :
    goFloat (wrap64 (Int.tmod (k : Int) xNum * tileSize))
      = f64OfInt ((k % 15 * 16 : Nat) : Int) ∧
    goFloat (wrap64 (Int.tdiv (k : Int) xNum * tileSize))
      = f64OfInt ((k / 15 * 16 : Nat) : Int) := by
  have hx : xNum = ((15 : Nat) : Int) := by decide
  have ht : tileSize = ((16 : Nat) : Int) := by decide
  have h53 : (2 : Nat) ^ 53 = 9007199254740992 := by norm_num
  rw [hx, ht, ← Int.ofNat_tmod, ← Int.ofNat_tdiv, ← Nat.cast_mul, ← Nat.cast_mul]
  constructor
  · rw [wrap64_of_range _ (by omega) (by omega)]
    apply goFloat_exact
    rw [h53]
    omega
  · rw [wrap64_of_range _ (by omega) (by omega)]
    apply goFloat_exact
    rw [h53]
    omega

theorem drawLayers_eq (layers : List (List (List Int))) :
    drawLayers layers = (layers.map (fun sl => drawTilesFrom 0 (flattenLayer sl))).flatten := by
  induction layers with
  | nil => rfl
  | cons sl rest ih => simp [drawLayers, ih]

theorem drawLayers_length (layers : List (List (List Int))) :
    (drawLayers layers).length = (layers.map (fun sl => sl.flatten.length)).sum := by
  induction layers with
  | nil => rfl
  | cons sl rest ih => simp [drawLayers, ih, drawTilesFrom_length, flattenLayer_eq]

/-- The draws of the `j`-th layer start after the draws of the layers before it. -/
theorem drawLayers_getElem? (layers : List (List (List Int))) (j k : Nat)
    (sl : List (List Int)) (hj : layers[j]? = some sl) (hk : k < sl.flatten.length) :
    (drawLayers layers)[((layers.take j).map (fun s => s.flatten.length)).sum + k]?
      = (drawTilesFrom 0 (flattenLayer sl))[k]? := by
  induction layers generalizing j with
  | nil => simp at hj
  | cons s0 rest ih =>
    cases j with
    | zero =>
      simp only [List.getElem?_cons_zero, Option.some.injEq] at hj
      subst hj
      have hlen : k < (drawTilesFrom 0 (flattenLayer s0)).length := by
        rw [drawTilesFrom_length, flattenLayer_eq]; exact hk
      simp [drawLayers, List.getElem?_append_left hlen]
    | succ j =>
      simp only [List.getElem?_cons_succ] at hj
      have hlen : (drawTilesFrom 0 (flattenLayer s0)).length = s0.flatten.length := by
        rw [drawTilesFrom_length, flattenLayer_eq]
      have h1 : (drawTilesFrom 0 (flattenLayer s0)).length
          ≤ ((((s0 :: rest).take (j + 1)).map (fun s => s.flatten.length)).sum + k) := by
        simp only [List.take_succ_cons, List.map_cons, List.sum_cons, hlen]
        omega
      have h2 : ((((s0 :: rest).take (j + 1)).map (fun s => s.flatten.length)).sum + k)
          - (drawTilesFrom 0 (flattenLayer s0)).length
          = ((rest.take j).map (fun s => s.flatten.length)).sum + k := by
        simp only [List.take_succ_cons, List.map_cons, List.sum_cons, hlen]
        omega
      rw [drawLayers, List.getElem?_append_right h1, h2]
      exact ih j hj

/-- With the player at `(proX, proY)` both shift steps are skipped and the layers are
drawn as they are. -/
theorem drawBackgroundLayers_at_rest (g : Game) (newLayers : List (List (List Int)))
    (hx : g.protaganistPosition.X = f64OfInt proX)
    (hy : g.protaganistPosition.Y = f64OfInt proY) :
    drawBackgroundLayers g newLayers = some (drawLayers newLayers) := by
  simp [drawBackgroundLayers, horizontalStep_of_eq g newLayers hx,
    verticalStep_of_eq g newLayers hy]

/-- C17: whenever `drawBackgroundLayers` issues its draws `ops` for a game state and a
layer stack, the draws are those of the layers left by the horizontal and the vertical
step, layer after layer: one tile draw per cell, and for the `j`-th such layer `sl` the
draw of the `k`-th cell of the row-major flattening of `sl` comes at position
`(number of cells of the layers before) + k` and is translated to pixel
`((k mod 15) * 16, (k div 15) * 16)`, with `15 = screenWidth / tileSize`; so when all rows
of `sl` have exactly 15 cells the cell at row `r` and column `c` is drawn at pixel
`(16 * c, 16 * r)`. The index `k` is taken below `2^52`, which holds for every slice that fits
the address space; there neither the `int` arithmetic wraps nor the conversion to `float64`
rounds. -/
theorem drawBackgroundLayers_tile_positions (g : Game) (newLayers : List (List (List Int)))
    (ops : List DrawOp) (h : drawBackgroundLayers g newLayers = some ops) :
    xNum = 15 ∧
    ∃ shifted, (horizontalStep g newLayers).bind (verticalStep g) = some shifted ∧
      ops.length = (shifted.map (fun sl => sl.flatten.length)).sum ∧
      ∀ j sl, shifted[j]? = some sl →
        flattenLayer sl = sl.flatten ∧
        (∀ k t, k < 4503599627370496 → sl.flatten[k]? = some t →
          ops[((shifted.take j).map (fun s => s.flatten.length)).sum + k]?
            = some (DrawOp.tile
                (f64OfInt ((k % 15 * 16 : Nat) : Int)) (f64OfInt ((k / 15 * 16 : Nat) : Int))
                (Int.tmod t tileXNum * tileSize) (Int.tdiv t tileXNum * tileSize))) ∧
        ((∀ row ∈ sl, row.length = 15) →
          ∀ r c t, c < 15 → 15 * r + c < 4503599627370496 →
            sl[r]?.bind (fun row => row[c]?) = some t →
            ops[((shifted.take j).map (fun s => s.flatten.length)).sum + (15 * r + c)]?
              = some (DrawOp.tile
                  (f64OfInt ((16 * c : Nat) : Int)) (f64OfInt ((16 * r : Nat) : Int))
                  (Int.tmod t tileXNum * tileSize) (Int.tdiv t tileXNum * tileSize))) := by
  refine ⟨by decide, ?_⟩
  simp only [drawBackgroundLayers, Option.bind_eq_bind, Option.bind_eq_some,
    Option.pure_def, Option.some.injEq] at h
  obtain ⟨h1, hh, shifted, hv, hops⟩ := h
  subst hops
  refine ⟨shifted, by simp [hh, hv], drawLayers_length shifted, ?_⟩
  intro j sl hj
  have hcell : ∀ k t, k < 4503599627370496 → sl.flatten[k]? = some t →
      (drawLayers shifted)[((shifted.take j).map (fun s => s.flatten.length)).sum + k]?
        = some (DrawOp.tile
            (f64OfInt ((k % 15 * 16 : Nat) : Int)) (f64OfInt ((k / 15 * 16 : Nat) : Int))
            (Int.tmod t tileXNum * tileSize) (Int.tdiv t tileXNum * tileSize)) := by
    intro k t hk hkt
    have hlen : k < sl.flatten.length := by
      by_contra hc
      rw [List.getElem?_eq_none_iff.mpr (by omega)] at hkt
      exact Option.noConfusion hkt
    have hkt2 : (flattenLayer sl)[k]? = some t := by rw [flattenLayer_eq]; exact hkt
    rw [drawLayers_getElem? shifted j k sl hj hlen,
      drawTilesFrom_getElem? _ 0 k t hkt2, Nat.zero_add,
      (tilePosition_eq k hk).1, (tilePosition_eq k hk).2]
  refine ⟨flattenLayer_eq sl, hcell, ?_⟩
  intro hrect r c t hc hb hrc
  have hk : sl.flatten[15 * r + c]? = some t := by
    rw [flatten_getElem?_rect 15 sl hrect r c hc, hrc]
  have h1 : (15 * r + c) % 15 = c := by omega
  have h2 : (15 * r + c) / 15 = r := by omega
  rw [hcell _ t hb hk, h1, h2, Nat.mul_comm c 16, Nat.mul_comm r 16]

theorem drawBackgroundLayers_tile_positions_witness :
    drawBackgroundLayers loadGame [[[1, 2], [3, 4]], [[5]]]
      = some (drawLayers [[[1, 2], [3, 4]], [[5]]]) ∧
    (xNum = 15 ∧
    ∃ shifted, (horizontalStep loadGame [[[1, 2], [3, 4]], [[5]]]).bind (verticalStep loadGame)
        = some shifted ∧
      (drawLayers [[[1, 2], [3, 4]], [[5]]]).length
        = (shifted.map (fun sl => sl.flatten.length)).sum ∧
      ∀ j sl, shifted[j]? = some sl →
        flattenLayer sl = sl.flatten ∧
        (∀ k t, k < 4503599627370496 → sl.flatten[k]? = some t →
          (drawLayers [[[1, 2], [3, 4]], [[5]]])[
              ((shifted.take j).map (fun s => s.flatten.length)).sum + k]?
            = some (DrawOp.tile
                (f64OfInt ((k % 15 * 16 : Nat) : Int)) (f64OfInt ((k / 15 * 16 : Nat) : Int))
                (Int.tmod t tileXNum * tileSize) (Int.tdiv t tileXNum * tileSize))) ∧
        ((∀ row ∈ sl, row.length = 15) →
          ∀ r c t, c < 15 → 15 * r + c < 4503599627370496 →
            sl[r]?.bind (fun row => row[c]?) = some t →
            (drawLayers [[[1, 2], [3, 4]], [[5]]])[
                ((shifted.take j).map (fun s => s.flatten.length)).sum + (15 * r + c)]?
              = some (DrawOp.tile
                  (f64OfInt ((16 * c : Nat) : Int)) (f64OfInt ((16 * r : Nat) : Int))
                  (Int.tmod t tileXNum * tileSize) (Int.tdiv t tileXNum * tileSize)))) :=
  ⟨drawBackgroundLayers_at_rest loadGame _ rfl rfl,
    drawBackgroundLayers_tile_positions loadGame [[[1, 2], [3, 4]], [[5]]]
      (drawLayers [[[1, 2], [3, 4]], [[5]]])
      (drawBackgroundLayers_at_rest loadGame _ rfl rfl)⟩

/-! ## RenderLoop: the state left by `Draw` -/

/-- The coordinate stored for a finite coordinate below `2^53` in magnitude and a step
`s` in `{-1, 0, 1}`: the truncation plus the step, an integer of magnitude at most `2^53`. -/
theorem storedCoordinate_finite (u s : Int) (hu : |u| < 9007199254740992 * f64Scale)
    (hs : s = -1 ∨ s = 0 ∨ s = 1) :
    goFloat (wrap64 (goInt (F64.finite u) + s)) = f64OfInt (Int.tdiv u f64Scale + s) ∧
    |(Int.tdiv u f64Scale + s) * f64Scale| < 2305843009213693952 * f64Scale := by
  have hsc := f64Scale_pos
  have hwide : |u| < 9223372036854775808 * f64Scale := by
    have : (9007199254740992 : Int) * f64Scale ≤ 9223372036854775808 * f64Scale :=
      Int.mul_le_mul_of_nonneg_right (by decide) (le_of_lt hsc)
    omega
  have habs : (Int.tdiv u f64Scale).natAbs < 9007199254740992 := by
    rw [Int.natAbs_tdiv]
    apply Nat.div_lt_of_lt_mul
    have h2 : ((u.natAbs : Nat) : Int)
        < ((f64Scale.natAbs * 9007199254740992 : Nat) : Int) := by
      rw [Int.natCast_natAbs]
      push_cast
      rw [abs_of_pos hsc]
      linarith
    exact_mod_cast h2
  have ht : |Int.tdiv u f64Scale| < 9007199254740992 := by
    rw [Int.abs_eq_natAbs]
    omega
  refine ⟨by rw [goInt_finite u hwide, storedCoordinate_exact _ _ ht hs], ?_⟩
  have ht2 := abs_lt.mp ht
  rw [abs_mul, abs_of_pos hsc]
  apply Int.mul_lt_mul_of_pos_right _ hsc
  rw [abs_lt]
  rcases hs with h | h | h <;> constructor <;> omega

theorem Draw_of_collect (g g1 : Game) (nl tl : List (List (List Int))) (bg : List DrawOp)
    (hc : collectUserInput g screenWidth screenHeight = some g1)
    (h1 : DuplicateLayers g1.layers = some nl)
    (hbg : drawBackgroundLayers g1 nl = some bg)
    (h2 : DuplicateLayers g1.textBoxLayers = some tl) :
    Draw g = some ({ g1 with keys := [] },
      bg ++ drawProtaganistMain g1 (f64OfInt proX) (f64OfInt proY)
        ++ drawTextBox g1 (f64OfInt 0) (f64OfInt 0) tl true ++ [DrawOp.debugPrint]) := by
  simp [Draw, hc, h1, hbg, h2, resetDrawValues]

theorem textBox_offset : screenHeight - screenHeight / 3 = 160 := by decide

/-- The call `drawTextBox(g, 0, 0, layers, true, screen)` of `Draw` issues the overlay draw. -/
theorem drawTextBox_true (g : Game) (x y : F64) (tl : List (List (List Int))) :
    drawTextBox g x y tl true = [DrawOp.textBox (f64OfInt 0) (f64OfInt 160)] := by
  simp [drawTextBox, textBox_offset]

/-- When `collectUserInput` leaves an integer-valued position of magnitude below `2^61`
and both duplications return, `Draw` returns, with the overlay draw among its draws. -/
theorem Draw_of_collect_integer (g : Game) (nl tl : List (List (List Int))) (x y : Int)
    (hx : |x * f64Scale| < 2305843009213693952 * f64Scale)
    (hy : |y * f64Scale| < 2305843009213693952 * f64Scale)
    (hc : collectUserInput g screenWidth screenHeight
      = some { g with protaganistPosition := ⟨f64OfInt x, f64OfInt y⟩ })
    (h1 : DuplicateLayers g.layers = some nl)
    (h2 : DuplicateLayers g.textBoxLayers = some tl) :
    ∃ ops, Draw g
      = some ({ g with keys := [], protaganistPosition := ⟨f64OfInt x, f64OfInt y⟩ }, ops)
      ∧ DrawOp.textBox (f64OfInt 0) (f64OfInt 160) ∈ ops := by
  obtain ⟨bg, hbg⟩ := drawBackgroundLayers_total_of_finite
    { g with protaganistPosition := ⟨f64OfInt x, f64OfInt y⟩ } nl
    (x * f64Scale) (y * f64Scale) rfl hx hy
  refine ⟨_, Draw_of_collect g _ nl tl bg hc h1 hbg h2, ?_⟩
  rw [drawTextBox_true]
  simp

set_option maxRecDepth 8000 in
/-- Closed form of the state returned by `Draw` for a finite position below `2^53` in
magnitude, when both duplications return. -/
theorem Draw_state (g : Game) (nl tl : List (List (List Int))) (ux uy : Int)
    (hpos : g.protaganistPosition = ⟨F64.finite ux, F64.finite uy⟩)
    (hx : |ux| < 9007199254740992 * f64Scale) (hy : |uy| < 9007199254740992 * f64Scale)
    (h1 : DuplicateLayers g.layers = some nl)
    (h2 : DuplicateLayers g.textBoxLayers = some tl) :
    ∃ ops, Draw g
      = some ({ g with
          keys := [],
          protaganistPosition :=
            { X := f64OfInt (Int.tdiv ux f64Scale
                + (match g.keys.getLast? with
                   | some Key.KeyLeft => -1
                   | some Key.KeyRight => 1
                   | _ => 0)),
              Y := f64OfInt (Int.tdiv uy f64Scale
                + (match g.keys.getLast? with
                   | some Key.KeyUp => -1
                   | some Key.KeyDown => 1
                   | _ => 0)) } }, ops)
      ∧ DrawOp.textBox (f64OfInt 0) (f64OfInt 160) ∈ ops := by
  have hX : g.protaganistPosition.X = F64.finite ux := by rw [hpos]
  have hY : g.protaganistPosition.Y = F64.finite uy := by rw [hpos]
  have kx0 := storedCoordinate_finite ux 0 hx (by simp)
  have kx1 := storedCoordinate_finite ux 1 hx (by simp)
  have kxm := storedCoordinate_finite ux (-1) hx (by simp)
  have ky0 := storedCoordinate_finite uy 0 hy (by simp)
  have ky1 := storedCoordinate_finite uy 1 hy (by simp)
  have kym := storedCoordinate_finite uy (-1) hy (by simp)
  have hc := collectUserInput_eq g screenWidth screenHeight
  rw [hX, hY] at hc
  rcases hk : g.keys.getLast? with _ | k
  · rw [hk] at hc
    simp only [kx0.1, ky0.1] at hc
    exact Draw_of_collect_integer g nl tl _ _ kx0.2 ky0.2 hc h1 h2
  · rw [hk] at hc
    cases k
    · simp only [kxm.1, ky0.1] at hc
      exact Draw_of_collect_integer g nl tl _ _ kxm.2 ky0.2 hc h1 h2
    · simp only [kx1.1, ky0.1] at hc
      exact Draw_of_collect_integer g nl tl _ _ kx1.2 ky0.2 hc h1 h2
    · simp only [kx0.1, kym.1] at hc
      exact Draw_of_collect_integer g nl tl _ _ kx0.2 kym.2 hc h1 h2
    · simp only [kx0.1, ky1.1] at hc
      exact Draw_of_collect_integer g nl tl _ _ kx0.2 ky1.2 hc h1 h2
    · simp only [kx0.1, ky0.1] at hc
      exact Draw_of_collect_integer g nl tl _ _ kx0.2 ky0.2 hc h1 h2

theorem loadGame_position_bound :
    |120 * f64Scale| < 9007199254740992 * f64Scale := by
  have hs := f64Scale_pos
  rw [abs_lt]
  constructor <;> omega

/-- C18: in the initial state of `loadGame` the flag `showTextBox` is false, yet one call
of `Draw` returns and issues the textbox overlay draw at offset `(0, 160)`, because `Draw`
passes the constant `true` to `drawTextBox` instead of the flag; in every state in which
`Draw` returns, the overlay draw is among the draws. -/
theorem Draw_textBox_drawn :
    loadGame.showTextBox = false ∧
    (Draw loadGame).map
        (fun r => decide (DrawOp.textBox (f64OfInt 0) (f64OfInt 160) ∈ r.2)) = some true ∧
    (∀ g r, Draw g = some r → DrawOp.textBox (f64OfInt 0) (f64OfInt 160) ∈ r.2) := by
  refine ⟨rfl, ?_, ?_⟩
  · obtain ⟨ops, hops, hmem⟩ := Draw_state loadGame loadGameLayers
      [List.replicate 5 (List.replicate 15 400) ++ List.replicate 10 []]
      (120 * f64Scale) (120 * f64Scale) rfl loadGame_position_bound loadGame_position_bound
      (by decide) (by decide)
    rw [hops]
    simp [hmem]
  · intro g r hr
    simp only [Draw, Option.bind_eq_bind, Option.bind_eq_some, Option.pure_def,
      Option.some.injEq] at hr
    obtain ⟨g1, -, nl, -, bg, -, tl, -, hr⟩ := hr
    subst hr
    simp [drawTextBox_true]

/-! ## UpdateLoop and RenderLoop: which step moves the player -/

end TestApp
